import Mathlib

/-!
# Verification of the pygmars shallow parser (`src/pygmars`)

This file embeds, in Lean, the data model and the operations of the pygmars
regular-expression parser:

* `src/pygmars/__init__.py` : `Token`, `as_token_label`
* `src/pygmars/tree.py`     : `Tree` (leaves, structural equality)
* `src/pygmars/parse.py`    : `ChunkString`, `RegexpChunkRule` / `ChunkRule`,
  `tag_pattern2re_pattern`, `RegexpChunkParser`, `RegexpParser`

Strings are modelled as `List Char` throughout (a faithful rendering of
Python `str` for the ASCII data these functions manipulate); Python
functions that can raise are modelled in the `Except String` monad.
-/

set_option maxHeartbeats 1000000

/-- Shorthand used to write concrete `List Char` values in theorems. -/
abbrev L (s : String) : List Char := s.toList

/-- A label, i.e. a Python string attached to a token or tree. -/
abbrev Lab := List Char

/-- The four delimiter characters of the ChunkString encoding.
Source: `ChunkString.CHUNK_TAG_CHAR = r"[^\{\}<>]"` (parse.py). -/
def isDelim (c : Char) : Bool := c = '<' || c = '>' || c = '{' || c = '}'

/-- A label usable as the content of a `<...>` atom: contains none of the
four delimiter characters.  Source: spec encoding rule "Label atoms never
contain `<`, `>`, `{`, `}`". -/
def legalLabel (l : Lab) : Bool := l.all (fun c => !isDelim c)

/-- A label accepted by `ChunkString._verify`'s `is_valid` regexp as the
content of one atom: nonempty and delimiter-free
(`CHUNK_TAG = (<[^\{\}<>]+?>)`). -/
def goodTag (l : Lab) : Bool := !l.isEmpty && legalLabel l

/-! ## Token (pygmars/__init__.py, class Token) -/

/-- `Token`: value, label, start_line, pos (`__slots__` of pygmars `Token`).
A pygmars `Token` is an ordinary object: it is *not* a tuple and *not* a
`Tree`. -/
structure PyToken where
  value : Lab
  label : Option Lab
  start_line : Option Nat
  pos : Option Nat

/-- An immediate child of a parse tree, as seen by `ChunkString._tag`:
either a `(value, label)` tuple, or a `Tree`, or any other Python object
(e.g. a pygmars `Token`), which `_tag` rejects.
`tree` carries the node label and the ordered children. -/
inductive PItem where
  | tup (value : Lab) (label : Lab)
  | obj (t : PyToken)
  | tree (label : Lab) (children : List PItem)

mutual

/-- `Tree.leaves` (tree.py): non-`Tree` children are leaves, `Tree`
children are flattened recursively, left to right. -/
def leavesI : PItem → List PItem
  | .tup v l => [.tup v l]
  | .obj t => [.obj t]
  | .tree _ cs => leavesL cs

/-- `leaves` of a list of children, in order. -/
def leavesL : List PItem → List PItem
  | [] => []
  | c :: cs => leavesI c ++ leavesL cs

end

theorem leavesL_append (a b : List PItem) :
    leavesL (a ++ b) = leavesL a ++ leavesL b := by
  induction a with
  | nil => simp [leavesL]
  | cons x xs ih => simp [leavesL, ih]

/-! ## as_token_label (pygmars/__init__.py) -/

/-- Characters kept by `only_wordchars = re.compile(r'[^A-Z0-9\-]').sub`:
uppercase ASCII letters, ASCII digits and the dash. -/
def isWordChar (c : Char) : Bool :=
  ('A' ≤ c && c ≤ 'Z') || ('0' ≤ c && c ≤ '9') || c = '-'

/-- `s.upper()`, modelled character-wise (exact on the ASCII data the
label pipeline produces). -/
def pyUpper (l : List Char) : List Char := l.map Char.toUpper

/-- `only_wordchars(' ', s)`: every character outside `[A-Z0-9-]` becomes
one space. -/
def onlyWordchars (l : List Char) : List Char :=
  l.map (fun c => if isWordChar c then c else ' ')

/-- `s.split()` after `only_wordchars`: split on runs of spaces, dropping
empty words.  (After `only_wordchars` the only whitespace left is `' '`.) -/
def pyWords : List Char → List (List Char)
  | [] => []
  | c :: r =>
    if c = ' ' then pyWords r
    else if r.head? = some ' ' then [c] :: pyWords r
    else match pyWords r with
      | [] => [[c]]
      | w :: ws => (c :: w) :: ws

/-- `' '.join(words)`. -/
def joinSpaces : List (List Char) → List Char
  | [] => []
  | [w] => w
  | w :: ws => w ++ ' ' :: joinSpaces ws

/-- `s.replace(' ', '-')`. -/
def spaceToDash (l : List Char) : List Char :=
  l.map (fun c => if c = ' ' then '-' else c)

/-- `s.replace('--', '-')`: one left-to-right pass, not re-scanning the
replacement (Python `str.replace` semantics). -/
def collapseDashPairs : List Char → List Char
  | [] => []
  | [c] => [c]
  | c :: d :: r =>
    if c = '-' && d = '-' then '-' :: collapseDashPairs r
    else c :: collapseDashPairs (d :: r)

/-- `s.strip('-')`: remove leading and trailing dashes. -/
def pyStripDash (l : List Char) : List Char :=
  ((l.dropWhile (fun c => c = '-')).reverse.dropWhile (fun c => c = '-')).reverse

/-- `s.lstrip('0123456789')`: remove leading ASCII digits. -/
def pyLstripDigits (l : List Char) : List Char :=
  l.dropWhile (fun c => c.isDigit)

/-- `as_token_label` (pygmars/__init__.py): uppercase, replace
non-`[A-Z0-9-]` characters with spaces, collapse whitespace, turn spaces
into dashes, collapse `--` (one pass), strip dashes, strip leading
digits. -/
def asTokenLabel (s : List Char) : List Char :=
  pyLstripDigits
    (pyStripDash
      (collapseDashPairs
        (spaceToDash
          (joinSpaces (pyWords (onlyWordchars (pyUpper s)))))))

/-- The well-formed-label shape claimed by the spec:
full match of `[A-Z][A-Z0-9-]*[A-Z0-9]?`, i.e. a nonempty string of
uppercase letters, digits and dashes which starts with an uppercase
letter.  (The trailing optional `[A-Z0-9]` adds nothing beyond the `*`.) -/
def specWellFormedLabel (l : List Char) : Bool :=
  match l with
  | [] => false
  | c :: r => ('A' ≤ c && c ≤ 'Z') && r.all isWordChar

/-! ## ChunkString (parse.py, class ChunkString)

The internal string of a `ChunkString` is scanned by several small
regexps.  Each is embedded as a single-pass character automaton over the
string, so that every definition is executable and kernel-reducible.
-/

/-- Scanner state for `is_valid = re.compile(r"^(\{?(<[^\{\}<>]+?>)\}?)*?$").match`:
`boundary false` = start of a block (after nothing or after a `}`),
`boundary true` = just after a closing `>` (an optional `}` may follow),
`afterBrace` = just after `{` (an atom must follow),
`inTag acc` = inside `<...>`, `acc` holding the characters read so far
(reversed). -/
inductive VState where
  | boundary (afterTag : Bool)
  | afterBrace
  | inTag (acc : List Char)

/-- Run the `is_valid` scanner, additionally collecting the contents of
every `<...>` atom in order.  Returns `none` exactly when the string is
not matched by `is_valid`. -/
def pcRun : List Char → VState → Option (List Lab)
  | [], .boundary _ => some []
  | [], _ => none
  | c :: r, .boundary b =>
    if c = '{' then pcRun r .afterBrace
    else if c = '<' then pcRun r (.inTag [])
    else if c = '}' then (if b then pcRun r (.boundary false) else none)
    else none
  | c :: r, .afterBrace =>
    if c = '<' then pcRun r (.inTag []) else none
  | c :: r, .inTag acc =>
    if c = '>' then
      (if acc.isEmpty then none else (pcRun r (.boundary true)).map (acc.reverse :: ·))
    else if isDelim c then none
    else pcRun r (.inTag (c :: acc))

/-- `ChunkString.is_valid`: the string is a sequence of
optionally-brace-wrapped nonempty atoms. -/
def isValidChunk (s : List Char) : Bool := (pcRun s (.boundary false)).isSome

/-- `get_curly_brackets`: `re.compile(r"[^\{\}]+").sub("", s)` keeps only
the brace characters. -/
def curlyOf (s : List Char) : List Char :=
  s.filter (fun c => c = '{' || c = '}')

/-- `has_balanced_non_nested_curly_brackets = re.compile(r"(\{\})*$").match`:
the brace string is a sequence of `{}` pairs. -/
def isBracePairs : List Char → Bool
  | [] => true
  | [_] => false
  | c :: d :: r => c = '{' && d = '}' && isBracePairs r

/-- The 5000-character chunked brace check of `ChunkString._verify`. -/
def chunkedBraceCheck (cb : List Char) : Bool :=
  (List.range (1 + cb.length / 5000)).all
    (fun i => isBracePairs ((cb.drop (i * 5000)).take 5000))

/-- `tag_splitter = re.compile(r"[\{\}<>]+").split`: split on maximal
nonempty runs of delimiter characters. -/
def sdr : List Char → List (List Char)
  | [] => [[]]
  | c :: r =>
    if isDelim c then
      match r with
      | [] => [[], []]
      | d :: _ => if isDelim d then sdr r else [] :: sdr r
    else (sdr r).modifyHead (c :: ·)

/-- `tag_splitter(s)[1:-1]` as used in `_verify`. -/
def tagsFromStr (s : List Char) : List Lab :=
  ((sdr s).drop 1).dropLast

/-- `re.compile(r"[{}]").split`: split at every single brace character. -/
def splitOnBraces : List Char → List (List Char)
  | [] => [[]]
  | c :: r =>
    if c = '{' || c = '}' then [] :: splitOnBraces r
    else (splitOnBraces r).modifyHead (c :: ·)

/-- `s.replace("{}", "")`: one left-to-right pass removing adjacent
`{`,`}` pairs (Python `str.replace` semantics). -/
def removeCurly : List Char → List Char
  | [] => []
  | [c] => [c]
  | c :: d :: r =>
    if c = '{' && d = '}' then removeCurly r
    else c :: removeCurly (d :: r)

/-- `ChunkString._tag` (parse.py): the label of a piece; raises
`ValueError` on anything that is neither a tuple nor a `Tree`. -/
def tagOf : PItem → Except String Lab
  | .tup _ l => .ok l
  | .tree l _ => .ok l
  | .obj _ => .error "chunk structures must contain tagged tokens or trees"

/-- `[self._tag(tok) for tok in pieces]`: the labels of the pieces, or
the first `ValueError`. -/
def tagsOf : List PItem → Except String (List Lab)
  | [] => .ok []
  | x :: r =>
    match tagOf x with
    | .error e => .error e
    | .ok t =>
      match tagsOf r with
      | .error e => .error e
      | .ok ts => .ok (t :: ts)

/-- The state of a `ChunkString`: `_root_label`, `_pieces`, `_str`,
`_debug`. -/
structure ChunkStringM where
  rootLabel : Lab
  pieces : List PItem
  str : List Char
  debug : Nat

/-- `ChunkString.__init__`: record the root label and the children, and
build `"<" + "><".join(tags) + ">"`. -/
def mkChunkString (rootLabel : Lab) (children : List PItem)
    (debug : Nat := 1) : Except String ChunkStringM :=
  match tagsOf children with
  | .error e => .error e
  | .ok tags =>
    .ok { rootLabel := rootLabel, pieces := children,
          str := '<' :: List.intercalate ['>', '<'] tags ++ ['>'],
          debug := debug }

/-- `ChunkString._verify(s, verify_tags)`: overall form, chunked brace
balance, and (when `verifyTags > 0`) the atom contents against the labels
of `_pieces`. -/
def verifyCS (pieces : List PItem) (s : List Char) (verifyTags : Nat) :
    Except String Unit :=
  if !isValidChunk s then
    .error "Transformation generated invalid chunkstring"
  else if !chunkedBraceCheck (curlyOf s) then
    .error "Transformation generated invalid chunkstring"
  else if verifyTags ≤ 0 then
    .ok ()
  else
    match tagsOf pieces with
    | .error e => .error e
    | .ok tags2 =>
      if tagsFromStr s ≠ tags2 then
        .error "Transformation generated invalid chunkstring: tag changed"
      else .ok ()

/-- `ChunkString.apply_transform(regexp, repl)`, with the `re.sub` call
abstracted as the string transformer `f`: substitute, strip `{}` pairs,
verify when `_debug > 1` (with `verify_tags = _debug - 2`), commit. -/
def applyTransform (cs : ChunkStringM) (f : List Char → List Char) :
    Except String ChunkStringM :=
  let s := removeCurly (f cs.str)
  if cs.debug > 1 then
    match verifyCS cs.pieces s (cs.debug - 2) with
    | .error e => .error e
    | .ok _ => .ok { cs with str := s }
  else .ok { cs with str := s }

/-- The piece-distribution loop of `ChunkString.to_chunkstruct`: regions
are the brace-split pieces of `_str`; each consumes as many `_pieces` as
it has `<` characters; regions at odd positions are wrapped in a chunk
subtree. -/
def distribute (chunkLabel : Lab) :
    List (List Char) → List PItem → Bool → List PItem
  | [], _, _ => []
  | reg :: rest, ps, inChunk =>
    let n := reg.count '<'
    let sub := ps.take n
    (if inChunk then [.tree chunkLabel sub] else sub)
      ++ distribute chunkLabel rest (ps.drop n) (!inChunk)

/-- `ChunkString.to_chunkstruct(chunk_label)`: verify (at `_debug > 0`),
then rebuild the tree, returned as its label and children. -/
def toChunkstruct (cs : ChunkStringM) (chunkLabel : Lab) :
    Except String (Lab × List PItem) :=
  if cs.debug > 0 then
    match verifyCS cs.pieces cs.str 1 with
    | .error e => .error e
    | .ok _ =>
      .ok (cs.rootLabel,
        distribute chunkLabel (splitOnBraces cs.str) cs.pieces false)
  else
    .ok (cs.rootLabel,
      distribute chunkLabel (splitOnBraces cs.str) cs.pieces false)

/-! ## tag_pattern2re_pattern (parse.py) -/

/-- Scanner state for
`is_chunk_tag_pattern = re.compile(r"^((([^\{\}<>]|\{\d+,?\}|\{\d*,\d+\})+|<[^\{\}<>]+>)*)$").match`:
`top` (accepting), `atom0`/`atom1` inside `<...>` (no char yet / some),
`q1`..`q5` inside a counted quantifier. -/
inductive QState where
  | top | atom0 | atom1
  | q1   -- just after `{`
  | q2   -- ≥ 1 digit read, no comma yet
  | q3   -- comma read after ≥ 1 digit
  | q4   -- comma read with no digit before it
  | q5   -- ≥ 1 digit read after the comma

/-- One step of the `is_chunk_tag_pattern` scanner. -/
def qStep : QState → Char → Option QState
  | .top, '<' => some .atom0
  | .top, '{' => some .q1
  | .top, c => if c = '}' || c = '>' then none else some .top
  | .atom0, c => if isDelim c then none else some .atom1
  | .atom1, '>' => some .top
  | .atom1, c => if isDelim c then none else some .atom1
  | .q1, ',' => some .q4
  | .q1, c => if c.isDigit then some .q2 else none
  | .q2, ',' => some .q3
  | .q2, '}' => some .top
  | .q2, c => if c.isDigit then some .q2 else none
  | .q3, '}' => some .top
  | .q3, c => if c.isDigit then some .q5 else none
  | .q4, c => if c.isDigit then some .q5 else none
  | .q5, '}' => some .top
  | .q5, c => if c.isDigit then some .q5 else none

/-- `is_chunk_tag_pattern`: full-match of the pattern-validity regexp. -/
def isChunkTagPattern (s : List Char) : Bool :=
  match s.foldlM qStep QState.top with
  | some .top => true
  | _ => false

/-- `remove_spaces = re.compile(r"\s").sub` applied with `""`. -/
def removeSpaces (s : List Char) : List Char :=
  s.filter (fun c => !c.isWhitespace)

/-- `.replace("<", "(<(")` — Python `str.replace` scans left to right and
never rescans replacement text, so it is the character-wise expansion. -/
def expandLt (s : List Char) : List Char :=
  s.flatMap (fun c => if c = '<' then ['(', '<', '('] else [c])

/-- `.replace(">", ")>)")`. -/
def expandGt (s : List Char) : List Char :=
  s.flatMap (fun c => if c = '>' then [')', '>', ')'] else [c])

/-- `ChunkString.CHUNK_TAG_CHAR_REVERSED`: the characters of
`r"[^\{\}<>]"` in reverse order.  (In the `re.sub` replacement template
the escapes `\{`, `\}` are kept verbatim, backslash included.) -/
def chunkTagCharReversed : List Char :=
  ['[', '^', '\\', '{', '\\', '}', '<', '>', ']'].reverse

/-- The test of the negative lookahead in
`re.sub(r"\.(?!\\(\\\\)*($|[^\\]))", ...)` over the reversed pattern: a
`.` is replaced exactly when the run of backslashes that follows it (in
the reversed string) has even length. -/
def evenBackslashRun (r : List Char) : Bool :=
  (r.takeWhile (fun c => c = '\\')).length % 2 = 0

/-- The `re.sub` pass itself, over the reversed pattern: left-to-right,
single-character matches, the replacement is not rescanned. -/
def replaceDotsRev : List Char → List Char
  | [] => []
  | '.' :: r =>
    if evenBackslashRun r then chunkTagCharReversed ++ replaceDotsRev r
    else '.' :: replaceDotsRev r
  | c :: r => c :: replaceDotsRev r

/-- `tag_pattern2re_pattern(tag_pattern)` (parse.py): remove whitespace,
parenthesise the angle brackets, validate with `is_chunk_tag_pattern`
(raising `ValueError` on failure), then replace each unescaped `.` by
`[^\{\}<>]` via the double-reversal trick.  (The `_cache` dict only
memoises the pure result and is not modelled.) -/
def tagPattern2rePattern (tagPattern : List Char) : Except String (List Char) :=
  let p := expandGt (expandLt (removeSpaces tagPattern))
  if !isChunkTagPattern p then
    .error ("Bad tag pattern: " ++ String.mk tagPattern)
  else .ok (replaceDotsRev p.reverse).reverse

/-- `ChunkString.IN_STRIP_PATTERN = r"(?=[^\}]*(\{|$))"`. -/
def inStripPattern : List Char :=
  ['(', '?', '='] ++ ['[', '^', '\\', '}', ']', '*'] ++
    ['(', '\\', '{', '|', '$', ')', ')']

/-- The full regexp string built by `ChunkRule.__init__`:
`(?P<chunk>COMPILED)` followed by the between-groups lookahead. -/
def chunkRuleRegexStr (compiled : List Char) : List Char :=
  ['(', '?', 'P', '<', 'c', 'h', 'u', 'n', 'k', '>'] ++ compiled ++ [')'] ++
    inStripPattern

/-- `ChunkRule.__init__(tag_pattern, descr)`: compile the tag pattern and
wrap it; the replacement is `{\g<chunk>}`. -/
def mkChunkRule (tagPattern : List Char) : Except String (List Char) :=
  match tagPattern2rePattern tagPattern with
  | .error e => .error e
  | .ok compiled => .ok (chunkRuleRegexStr compiled)

/-! ## Grammar reading (parse.py, RegexpChunkRule.fromstring and
RegexpParser._read_grammar) -/

/-- Python `str.strip()`. -/
def pyStrip (l : List Char) : List Char :=
  ((l.dropWhile Char.isWhitespace).reverse.dropWhile Char.isWhitespace).reverse

/-- Split at the first occurrence of `c`: `some (before, after)` if `c`
occurs, `none` otherwise. -/
def splitFirst (c : Char) : List Char → Option (List Char × List Char)
  | [] => none
  | d :: r =>
    if d = c then some ([], r)
    else (splitFirst c r).map (fun (a, b) => (d :: a, b))

/-- `RegexpChunkRule.fromstring(s)`: split off the `#` comment, strip,
and accept only the brace-enclosed chunk-rule form `{pattern}`, whose
braces are stripped before compiling; everything else (including
compilation failures) becomes `ValueError("Illegal chunk pattern: ...")`.
Returns the compiled rule regexp string. -/
def ruleFromString (s : List Char) : Except String (List Char) :=
  let rule := pyStrip (match splitFirst '#' s with
    | some (before, _) => before
    | none => s)
  let illegal : Except String (List Char) :=
    .error ("Illegal chunk pattern: " ++ String.mk rule)
  match rule with
  | [] => illegal
  | c :: r =>
    if c = '{' && rule.getLast? = some '}' then
      match mkChunkRule (r.dropLast) with
      | .ok re => .ok re
      | .error _ => illegal
    else illegal

/-- One stage of a grammar: the chunk label (left of `:`) and the
compiled rule regexps of its lines. -/
structure StageStr where
  chunkLabel : Lab
  rules : List (List Char)

/-- `RegexpParser._add_stage`: record a stage when it has rules; a rule
list without a stage marker is an error. -/
def addStage (stages : List StageStr) (rules : List (List Char))
    (lhs : Option Lab) : Except String (List StageStr) :=
  if rules = [] then .ok stages
  else match lhs with
    | none => .error "Expected stage marker (eg NP:)"
    | some l => .ok (stages ++ [{ chunkLabel := l, rules := rules }])

/-- The per-line loop of `RegexpParser._read_grammar`.  A line containing
`:` starts a new stage (`new_stage`'s `(\.|[^:])*` group is just
`[^:]*`, so the split is at the first `:`); blank and `#` lines are
skipped; other lines are parsed as rules. -/
def readGrammarLines (lines : List (List Char)) (stages : List StageStr)
    (rules : List (List Char)) (lhs : Option Lab) :
    Except String (List StageStr) :=
  match lines with
  | [] => addStage stages rules lhs
  | line :: rest =>
    let line := pyStrip line
    match splitFirst ':' line with
    | some (nonterminal, ruleTxt) =>
      match addStage stages rules lhs with
      | .error e => .error e
      | .ok stages =>
        let lhs := some (pyStrip nonterminal)
        let line := pyStrip ruleTxt
        if line = [] || line.head? = some '#' then
          readGrammarLines rest stages [] lhs
        else
          match ruleFromString line with
          | .error e => .error e
          | .ok r => readGrammarLines rest stages [r] lhs
    | none =>
      if line = [] || line.head? = some '#' then
        readGrammarLines rest stages rules lhs
      else
        match ruleFromString line with
        | .error e => .error e
        | .ok r => readGrammarLines rest stages (rules ++ [r]) lhs

/-- Split a grammar string on newlines (`grammar.split("\n")`). -/
def splitNl : List Char → List (List Char)
  | [] => [[]]
  | c :: r =>
    if c = '\n' then [] :: splitNl r
    else (splitNl r).modifyHead (c :: ·)

/-- `RegexpParser._read_grammar(grammar, ...)`: the list of stages, or
the first construction-time error. -/
def readGrammar (grammar : List Char) : Except String (List StageStr) :=
  readGrammarLines (splitNl grammar) [] [] none

/-! ## The parsers (parse.py, RegexpChunkParser and RegexpParser) -/

/-- The `chunk_struct` argument of `parse`: either a plain list of
tokens, or a tree (Python distinguishes them with a `label()`
`try/except`). -/
inductive ChunkStructV where
  | lst (items : List PItem)
  | tr (label : Lab) (children : List PItem)

/-- `len(chunk_struct)`. -/
def lengthV : ChunkStructV → Nat
  | .lst items => items.length
  | .tr _ children => children.length

/-- The label/children view after the `label()` `try/except`: a list is
wrapped as `Tree(self._root_label, chunk_struct)`. -/
def asTreeV (rootLabel : Lab) : ChunkStructV → Lab × List PItem
  | .lst items => (rootLabel, items)
  | .tr l children => (l, children)

/-- `RegexpChunkParser`: an ordered list of rules (each modelled by the
string transformer its `re.sub(regexp, repl, ·)` performs), the chunk
label, and the root label. -/
structure RCParser where
  rules : List (List Char → List Char)
  chunkLabel : Lab
  rootLabel : Lab

/-- The per-rule loop of `parse`: apply each rule's transformation to
the `ChunkString` in order. -/
def applyRules : List (List Char → List Char) → ChunkStringM →
    Except String ChunkStringM
  | [], cs => .ok cs
  | f :: fs, cs =>
    match applyTransform cs f with
    | .error e => .error e
    | .ok cs => applyRules fs cs

/-- `RegexpChunkParser.parse`: on an empty input, print a warning and
return `Tree(self._root_label, [])`; otherwise build the `ChunkString`
(at debug level 1), apply every rule's transformation in order, and
convert back with `to_chunkstruct(self._chunk_label)`.  The returned
tree is given as its label and children. -/
def rcparse (P : RCParser) (v : ChunkStructV) :
    Except String (Lab × List PItem) :=
  if lengthV v = 0 then .ok (P.rootLabel, [])
  else
    let (lbl, children) := asTreeV P.rootLabel v
    match mkChunkString lbl children 1 with
    | .error e => .error e
    | .ok cs =>
      match applyRules P.rules cs with
      | .error e => .error e
      | .ok cs => toChunkstruct cs P.chunkLabel

/-- `RegexpParser`: the stages, applied in order `loop` times. -/
structure RParser where
  stages : List RCParser
  loop : Nat

/-- One pass of `RegexpParser.parse` over the stages, in order. -/
def runStages : List RCParser → ChunkStructV → Except String ChunkStructV
  | [], v => .ok v
  | stage :: rest, v =>
    match rcparse stage v with
    | .error e => .error e
    | .ok (l, cs) => runStages rest (.tr l cs)

/-- The `for _ in range(self._loop)` iteration of `RegexpParser.parse`. -/
def runLoops : Nat → List RCParser → ChunkStructV →
    Except String ChunkStructV
  | 0, _, v => .ok v
  | n + 1, stages, v =>
    match runStages stages v with
    | .error e => .error e
    | .ok v' => runLoops n stages v'

/-- `RegexpParser.parse`: thread `chunk_struct` through every stage of
every loop iteration. -/
def rparse (P : RParser) (v : ChunkStructV) : Except String ChunkStructV :=
  runLoops P.loop P.stages v

/-! ## Regexes over the encoding (the target of `tag_pattern2re_pattern`)

A `CharRegex` is the syntax tree of a Python regular expression over
characters, covering the constructs that appear in compiled tag patterns:
literals, the `[^\{\}<>]` class written by the compiler (constructor
`dot`), explicit character classes, concatenation, alternation, the
quantifiers `* + ?` and the counted quantifiers, and (only for the
engine) the end anchor `$`.
-/

inductive CharRegex where
  | eps
  | eos
  | lit (c : Char)
  | dot
  | cls (neg : Bool) (cs : List Char)
  | seq (a b : CharRegex)
  | alt (a b : CharRegex)
  | star (a : CharRegex)
  | plus (a : CharRegex)
  | opt (a : CharRegex)
  | repE (n : Nat) (a : CharRegex)
  | repAL (n : Nat) (a : CharRegex)
  | repR (m n : Nat) (a : CharRegex)
deriving Repr, DecidableEq

/-- The matching relation of a `CharRegex`: `CMatch r s` holds when `r`
matches exactly the string `s`.  `dot` is the class `[^\{\}<>]`;
`repE n` is `{n}`, `repAL n` is `{n,}`, `repR m n` is `{m,n}`.  The
anchor `eos` has no rule: it never matches a whole span by itself. -/
inductive CMatch : CharRegex → List Char → Prop where
  | eps : CMatch .eps []
  | lit (c : Char) : CMatch (.lit c) [c]
  | dot (c : Char) : isDelim c = false → CMatch .dot [c]
  | cls (neg : Bool) (cs : List Char) (c : Char) :
      cs.contains c = !neg → CMatch (.cls neg cs) [c]
  | seq {a b s1 s2} : CMatch a s1 → CMatch b s2 → CMatch (.seq a b) (s1 ++ s2)
  | altL {a b s} : CMatch a s → CMatch (.alt a b) s
  | altR {a b s} : CMatch b s → CMatch (.alt a b) s
  | starNil {a} : CMatch (.star a) []
  | starCons {a s1 s2} : CMatch a s1 → CMatch (.star a) s2 →
      CMatch (.star a) (s1 ++ s2)
  | plus {a s1 s2} : CMatch a s1 → CMatch (.star a) s2 →
      CMatch (.plus a) (s1 ++ s2)
  | optN {a} : CMatch (.opt a) []
  | optS {a s} : CMatch a s → CMatch (.opt a) s
  | repEZ {a} : CMatch (.repE 0 a) []
  | repES {a s1 s2 n} : CMatch a s1 → CMatch (.repE n a) s2 →
      CMatch (.repE (n + 1) a) (s1 ++ s2)
  | repAL {a s1 s2 n} : CMatch (.repE n a) s1 → CMatch (.star a) s2 →
      CMatch (.repAL n a) (s1 ++ s2)
  | repR {a s m n k} : m ≤ k → k ≤ n → CMatch (.repE k a) s →
      CMatch (.repR m n a) s

/-- A label pattern of the tag-pattern dialect, as a syntax tree:
`atom r` is `<X>` with `X` the character regex `r`; outside atoms the
dialect allows exactly concatenation, `|`, `? * +` and the counted
quantifiers (whitespace is discarded by the compiler before any of this
structure is read). -/
inductive TagPattern where
  | atom (r : CharRegex)
  | seq (a b : TagPattern)
  | alt (a b : TagPattern)
  | star (a : TagPattern)
  | plus (a : TagPattern)
  | opt (a : TagPattern)
  | repE (n : Nat) (a : TagPattern)
  | repAL (n : Nat) (a : TagPattern)
  | repR (m n : Nat) (a : TagPattern)
deriving Repr, DecidableEq

/-- The atom-level reading of a label pattern: a pattern matches a list
of labels, `<X>` matching any single label whose text matches `X`. -/
inductive TMatch : TagPattern → List Lab → Prop where
  | atom {r l} : CMatch r l → TMatch (.atom r) [l]
  | seq {a b s1 s2} : TMatch a s1 → TMatch b s2 → TMatch (.seq a b) (s1 ++ s2)
  | altL {a b s} : TMatch a s → TMatch (.alt a b) s
  | altR {a b s} : TMatch b s → TMatch (.alt a b) s
  | starNil {a} : TMatch (.star a) []
  | starCons {a s1 s2} : TMatch a s1 → TMatch (.star a) s2 →
      TMatch (.star a) (s1 ++ s2)
  | plus {a s1 s2} : TMatch a s1 → TMatch (.star a) s2 →
      TMatch (.plus a) (s1 ++ s2)
  | optN {a} : TMatch (.opt a) []
  | optS {a s} : TMatch a s → TMatch (.opt a) s
  | repEZ {a} : TMatch (.repE 0 a) []
  | repES {a s1 s2 n} : TMatch a s1 → TMatch (.repE n a) s2 →
      TMatch (.repE (n + 1) a) (s1 ++ s2)
  | repAL {a s1 s2 n} : TMatch (.repE n a) s1 → TMatch (.star a) s2 →
      TMatch (.repAL n a) (s1 ++ s2)
  | repR {a s m n k} : m ≤ k → k ≤ n → TMatch (.repE k a) s →
      TMatch (.repR m n a) s

/-- Well-formedness of a character regex appearing inside `<...>` of a
tag pattern: its literals avoid the four delimiter characters (the
validity regexp `is_chunk_tag_pattern` admits no delimiter inside an
atom), and the anchor and raw classes do not occur in the dialect. -/
def wfC : CharRegex → Bool
  | .eps => true
  | .eos => false
  | .lit c => !isDelim c
  | .dot => true
  | .cls _ _ => false
  | .seq a b => wfC a && wfC b
  | .alt a b => wfC a && wfC b
  | .star a => wfC a
  | .plus a => wfC a
  | .opt a => wfC a
  | .repE _ a => wfC a
  | .repAL _ a => wfC a
  | .repR _ _ a => wfC a

/-- Well-formedness of a tag pattern: every atom is well-formed. -/
def wfT : TagPattern → Bool
  | .atom r => wfC r
  | .seq a b => wfT a && wfT b
  | .alt a b => wfT a && wfT b
  | .star a => wfT a
  | .plus a => wfT a
  | .opt a => wfT a
  | .repE _ a => wfT a
  | .repAL _ a => wfT a
  | .repR _ _ a => wfT a

/-- `tag_pattern2re_pattern` at the level of syntax trees: each atom
`<X>` becomes the bracketed literal match `<`, then `X` (whose `.` the
compiler rewrites to `[^\{\}<>]`, which is the semantics of `dot`
already), then `>`; the added parentheses `(<(...)>)` are the tree
structure itself, and every operator outside atoms is kept. -/
def compileTag : TagPattern → CharRegex
  | .atom r => .seq (.lit '<') (.seq r (.lit '>'))
  | .seq a b => .seq (compileTag a) (compileTag b)
  | .alt a b => .alt (compileTag a) (compileTag b)
  | .star a => .star (compileTag a)
  | .plus a => .plus (compileTag a)
  | .opt a => .opt (compileTag a)
  | .repE n a => .repE n (compileTag a)
  | .repAL n a => .repAL n (compileTag a)
  | .repR m n a => .repR m n (compileTag a)

/-- The ChunkString encoding of a label sequence:
`"<" + "><".join(labels) + ">"` for a nonempty sequence, i.e. one
`<label>` atom per label. -/
def encodeL (M : List Lab) : List Char :=
  M.flatMap (fun l => '<' :: l ++ ['>'])

theorem encodeL_append (a b : List Lab) :
    encodeL (a ++ b) = encodeL a ++ encodeL b := by
  simp [encodeL]

/-! ## Soundness and completeness of the tag-pattern compilation -/

theorem legalLabel_not_gt {l : Lab} (h : legalLabel l = true) : '>' ∉ l := by
  intro hm
  have := List.all_eq_true.mp h _ hm
  simp [isDelim] at this

theorem cmatch_lit_inv {c : Char} {s : List Char}
    (h : CMatch (.lit c) s) : s = [c] := by
  cases h; rfl

theorem cmatch_chars {r : CharRegex} {s : List Char} (h : CMatch r s)
    (hw : wfC r = true) : ∀ c ∈ s, isDelim c = false := by
  induction h with
  | eps => simp
  | lit c => simp_all [wfC]
  | dot c hc => simp_all
  | cls neg cs c hc => simp [wfC] at hw
  | seq h1 h2 ih1 ih2 =>
    simp only [wfC, Bool.and_eq_true] at hw
    intro c hc
    rcases List.mem_append.mp hc with h | h
    · exact ih1 hw.1 c h
    · exact ih2 hw.2 c h
  | altL h ih => simp only [wfC, Bool.and_eq_true] at hw; exact ih hw.1
  | altR h ih => simp only [wfC, Bool.and_eq_true] at hw; exact ih hw.2
  | starNil => simp
  | starCons h1 h2 ih1 ih2 =>
    intro c hc
    rcases List.mem_append.mp hc with h | h
    · exact ih1 hw c h
    · exact ih2 hw c h
  | plus h1 h2 ih1 ih2 =>
    intro c hc
    rcases List.mem_append.mp hc with h | h
    · exact ih1 hw c h
    · exact ih2 hw c h
  | optN => simp
  | optS h ih => exact ih hw
  | repEZ => simp
  | repES h1 h2 ih1 ih2 =>
    intro c hc
    rcases List.mem_append.mp hc with h | h
    · exact ih1 hw c h
    · exact ih2 hw c h
  | repAL h1 h2 ih1 ih2 =>
    intro c hc
    rcases List.mem_append.mp hc with h | h
    · exact ih1 hw c h
    · exact ih2 hw c h
  | repR hm hn h ih => exact ih hw

/-- Soundness of the compilation: a string matched by the compiled
pattern is the encoding of a label sequence matched by the original
pattern at the atom level. -/
theorem cmatch_sound {r : CharRegex} {s : List Char} (h : CMatch r s) :
    ∀ p : TagPattern, r = compileTag p → wfT p = true →
      ∃ M, s = encodeL M ∧ M.all legalLabel = true ∧ TMatch p M := by
  induction h with
  | eps => intro p hp _; cases p <;> simp [compileTag] at hp
  | lit c => intro p hp _; cases p <;> simp [compileTag] at hp
  | dot c hc => intro p hp _; cases p <;> simp [compileTag] at hp
  | cls neg cs c hc => intro p hp _; cases p <;> simp [compileTag] at hp
  | @seq a b s1 s2 h1 h2 ih1 ih2 =>
    intro p hp hw
    cases p <;> simp only [compileTag, CharRegex.seq.injEq,
      reduceCtorEq] at hp
    case atom R =>
      obtain ⟨ha, hb⟩ := hp
      subst ha hb
      have hs1 : s1 = ['<'] := cmatch_lit_inv h1
      cases h2 with
      | @seq _ _ sa sb hR hgt =>
        have hsb : sb = ['>'] := cmatch_lit_inv hgt
        refine ⟨[sa], ?_, ?_, ?_⟩
        · simp [encodeL, hs1, hsb]
        · simp only [List.all_cons, List.all_nil, Bool.and_true]
          have := cmatch_chars hR (by simpa [wfT] using hw)
          exact List.all_eq_true.mpr (fun c hc => by simpa using this c hc)
        · exact TMatch.atom hR
    case seq p1 p2 =>
      obtain ⟨ha, hb⟩ := hp
      simp only [wfT, Bool.and_eq_true] at hw
      obtain ⟨M1, e1, g1, t1⟩ := ih1 p1 ha hw.1
      obtain ⟨M2, e2, g2, t2⟩ := ih2 p2 hb hw.2
      refine ⟨M1 ++ M2, ?_, ?_, TMatch.seq t1 t2⟩
      · simp [encodeL_append, e1, e2]
      · simp_all
  | @altL a b s h ih =>
    intro p hp hw
    cases p <;> simp only [compileTag, CharRegex.alt.injEq,
      reduceCtorEq] at hp
    case alt p1 p2 =>
      simp only [wfT, Bool.and_eq_true] at hw
      obtain ⟨M, e, g, t⟩ := ih p1 hp.1 hw.1
      exact ⟨M, e, g, TMatch.altL t⟩
  | @altR a b s h ih =>
    intro p hp hw
    cases p <;> simp only [compileTag, CharRegex.alt.injEq,
      reduceCtorEq] at hp
    case alt p1 p2 =>
      simp only [wfT, Bool.and_eq_true] at hw
      obtain ⟨M, e, g, t⟩ := ih p2 hp.2 hw.2
      exact ⟨M, e, g, TMatch.altR t⟩
  | @starNil a =>
    intro p hp hw
    cases p <;> simp only [compileTag, CharRegex.star.injEq,
      reduceCtorEq] at hp
    case star p1 => exact ⟨[], by simp [encodeL], by simp, TMatch.starNil⟩
  | @starCons a s1 s2 h1 h2 ih1 ih2 =>
    intro p hp hw
    cases p <;> simp only [compileTag, CharRegex.star.injEq,
      reduceCtorEq] at hp
    case star p1 =>
      obtain ⟨M1, e1, g1, t1⟩ := ih1 p1 hp (by simpa [wfT] using hw)
      obtain ⟨M2, e2, g2, t2⟩ := ih2 (.star p1) (by simp [compileTag, hp]) hw
      refine ⟨M1 ++ M2, ?_, ?_, TMatch.starCons t1 t2⟩
      · simp [encodeL_append, e1, e2]
      · simp_all
  | @plus a s1 s2 h1 h2 ih1 ih2 =>
    intro p hp hw
    cases p <;> simp only [compileTag, CharRegex.plus.injEq,
      reduceCtorEq] at hp
    case plus p1 =>
      obtain ⟨M1, e1, g1, t1⟩ := ih1 p1 hp (by simpa [wfT] using hw)
      obtain ⟨M2, e2, g2, t2⟩ := ih2 (.star p1) (by simp [compileTag, hp])
        (by simpa [wfT] using hw)
      refine ⟨M1 ++ M2, ?_, ?_, TMatch.plus t1 t2⟩
      · simp [encodeL_append, e1, e2]
      · simp_all
  | @optN a =>
    intro p hp hw
    cases p <;> simp only [compileTag, CharRegex.opt.injEq,
      reduceCtorEq] at hp
    case opt p1 => exact ⟨[], by simp [encodeL], by simp, TMatch.optN⟩
  | @optS a s h ih =>
    intro p hp hw
    cases p <;> simp only [compileTag, CharRegex.opt.injEq,
      reduceCtorEq] at hp
    case opt p1 =>
      obtain ⟨M, e, g, t⟩ := ih p1 hp (by simpa [wfT] using hw)
      exact ⟨M, e, g, TMatch.optS t⟩
  | @repEZ a =>
    intro p hp hw
    cases p <;> simp only [compileTag, CharRegex.repE.injEq,
      reduceCtorEq] at hp
    case repE n p1 =>
      obtain ⟨hn, _⟩ := hp
      subst hn
      exact ⟨[], by simp [encodeL], by simp, TMatch.repEZ⟩
  | @repES a s1 s2 n h1 h2 ih1 ih2 =>
    intro p hp hw
    cases p <;> simp only [compileTag, CharRegex.repE.injEq,
      reduceCtorEq] at hp
    case repE n' p1 =>
      obtain ⟨hn, ha⟩ := hp
      subst hn
      obtain ⟨M1, e1, g1, t1⟩ := ih1 p1 ha (by simpa [wfT] using hw)
      obtain ⟨M2, e2, g2, t2⟩ := ih2 (.repE n p1) (by simp [compileTag, ha])
        (by simpa [wfT] using hw)
      refine ⟨M1 ++ M2, ?_, ?_, TMatch.repES t1 t2⟩
      · simp [encodeL_append, e1, e2]
      · simp_all
  | @repAL a s1 s2 n h1 h2 ih1 ih2 =>
    intro p hp hw
    cases p <;> simp only [compileTag, CharRegex.repAL.injEq,
      reduceCtorEq] at hp
    case repAL n' p1 =>
      obtain ⟨hn, ha⟩ := hp
      subst hn
      obtain ⟨M1, e1, g1, t1⟩ := ih1 (.repE n p1) (by simp [compileTag, ha])
        (by simpa [wfT] using hw)
      obtain ⟨M2, e2, g2, t2⟩ := ih2 (.star p1) (by simp [compileTag, ha])
        (by simpa [wfT] using hw)
      refine ⟨M1 ++ M2, ?_, ?_, TMatch.repAL t1 t2⟩
      · simp [encodeL_append, e1, e2]
      · simp_all
  | @repR a s m n k hm hn h ih =>
    intro p hp hw
    cases p <;> simp only [compileTag, CharRegex.repR.injEq,
      reduceCtorEq] at hp
    case repR m' n' p1 =>
      obtain ⟨hm', hn', ha⟩ := hp
      subst hm' hn'
      obtain ⟨M, e, g, t⟩ := ih (.repE k p1) (by simp [compileTag, ha])
        (by simpa [wfT] using hw)
      exact ⟨M, e, g, TMatch.repR hm hn t⟩

/-- Completeness of the compilation: if a pattern matches a label
sequence at the atom level, the compiled pattern matches its encoding. -/
theorem tmatch_complete {p : TagPattern} {M : List Lab} (h : TMatch p M) :
    CMatch (compileTag p) (encodeL M) := by
  induction h with
  | @atom r l hR =>
    have : encodeL [l] = ['<'] ++ (l ++ ['>']) := by simp [encodeL]
    rw [this]
    exact CMatch.seq (CMatch.lit '<') (CMatch.seq hR (CMatch.lit '>'))
  | seq h1 h2 ih1 ih2 =>
    rw [encodeL_append]; exact CMatch.seq ih1 ih2
  | altL h ih => exact CMatch.altL ih
  | altR h ih => exact CMatch.altR ih
  | starNil => exact CMatch.starNil
  | starCons h1 h2 ih1 ih2 =>
    rw [encodeL_append]; exact CMatch.starCons ih1 ih2
  | plus h1 h2 ih1 ih2 =>
    rw [encodeL_append]; exact CMatch.plus ih1 ih2
  | optN => exact CMatch.optN
  | optS h ih => exact CMatch.optS ih
  | repEZ => exact CMatch.repEZ
  | repES h1 h2 ih1 ih2 =>
    rw [encodeL_append]; exact CMatch.repES ih1 ih2
  | repAL h1 h2 ih1 ih2 =>
    rw [encodeL_append]; exact CMatch.repAL ih1 ih2
  | repR hm hn h ih => exact CMatch.repR hm hn ih

/-- Two delimiter-free strings followed by `'>'` split an equality
uniquely. -/
theorem append_gt_inj : ∀ (a b u v : List Char), '>' ∉ a → '>' ∉ b →
    a ++ '>' :: u = b ++ '>' :: v → a = b ∧ u = v := by
  intro a
  induction a with
  | nil =>
    intro b u v _ hb h
    cases b with
    | nil => simpa using h
    | cons d b' =>
      simp only [List.nil_append, List.cons_append, List.cons.injEq] at h
      exact absurd (h.1 ▸ List.mem_cons_self d b') hb
  | cons c a' ih =>
    intro b u v ha hb h
    cases b with
    | nil =>
      simp only [List.cons_append, List.nil_append, List.cons.injEq] at h
      exact absurd (h.1 ▸ List.mem_cons_self c a') ha
    | cons d b' =>
      simp only [List.cons_append, List.cons.injEq] at h
      obtain ⟨rfl, h⟩ := h
      have := ih b' u v (fun hm => ha (List.mem_cons_of_mem _ hm))
        (fun hm => hb (List.mem_cons_of_mem _ hm)) h
      exact ⟨by rw [this.1], this.2⟩

/-- `encodeL` is injective on sequences of delimiter-free labels. -/
theorem encodeL_inj : ∀ (M N : List Lab), M.all legalLabel = true →
    N.all legalLabel = true → encodeL M = encodeL N → M = N := by
  intro M
  induction M with
  | nil =>
    intro N _ _ h
    cases N with
    | nil => rfl
    | cons b N' => simp [encodeL] at h
  | cons a M' ih =>
    intro N hM hN h
    cases N with
    | nil => simp [encodeL] at h
    | cons b N' =>
      simp only [List.all_cons, Bool.and_eq_true] at hM hN
      simp only [encodeL, List.flatMap_cons] at h
      have h' : a ++ '>' :: encodeL M' = b ++ '>' :: encodeL N' := by
        simpa using h
      obtain ⟨rfl, he⟩ := append_gt_inj _ _ _ _
        (legalLabel_not_gt hM.1) (legalLabel_not_gt hN.1) h'
      rw [ih N' hM.2 hN.2 he]

theorem encodeL_eq_nil {M : List Lab} (h : encodeL M = []) : M = [] := by
  cases M with
  | nil => rfl
  | cons a M' => simp [encodeL] at h

theorem legalLabel_not_lt {l : Lab} (h : legalLabel l = true) : '<' ∉ l := by
  intro hm
  have := List.all_eq_true.mp h _ hm
  simp [isDelim] at this

theorem encodeL_nil : encodeL [] = [] := rfl

theorem encodeL_cons (a : Lab) (M : List Lab) :
    encodeL (a :: M) = '<' :: (a ++ '>' :: encodeL M) := by
  simp [encodeL]

/-- If a string starting with a delimiter-free block and `'>'` is also a
string with `'<' :: w` somewhere after a prefix `u'`, then `u'` swallows
the whole block. -/
theorem factor_after_label : ∀ (a u' rest w : List Char), '<' ∉ a →
    a ++ '>' :: rest = u' ++ '<' :: w →
    ∃ u'', u' = a ++ '>' :: u'' ∧ rest = u'' ++ '<' :: w := by
  intro a
  induction a with
  | nil =>
    intro u' rest w _ h
    cases u' with
    | nil =>
      exfalso
      simp only [List.nil_append, List.cons.injEq] at h
      exact absurd h.1 (by decide)
    | cons d u'' =>
      simp only [List.nil_append, List.cons_append, List.cons.injEq] at h
      exact ⟨u'', by simp [h.1.symm], h.2⟩
  | cons x a' ih =>
    intro u' rest w ha h
    cases u' with
    | nil =>
      exfalso
      simp only [List.cons_append, List.nil_append, List.cons.injEq] at h
      exact ha (h.1 ▸ List.mem_cons_self x a')
    | cons d u'' =>
      simp only [List.cons_append, List.cons.injEq] at h
      obtain ⟨rfl, h2⟩ := h
      obtain ⟨w', hw1, hw2⟩ := ih u'' rest w
        (fun hm => ha (List.mem_cons_of_mem _ hm)) h2
      exact ⟨w', by simp [hw1], hw2⟩

/-- A nonempty encoding occurring as a factor of the encoding of a
label sequence is aligned on atom boundaries: it is the encoding of a
contiguous sub-sequence, and the surrounding text encodes the rest. -/
theorem encode_split : ∀ (Lq M : List Lab) (u v : List Char),
    Lq.all legalLabel = true → M.all legalLabel = true →
    encodeL Lq = u ++ encodeL M ++ v → M ≠ [] →
    ∃ L1 L2, Lq = L1 ++ M ++ L2 ∧ encodeL L1 = u ∧ encodeL L2 = v := by
  intro Lq
  induction Lq with
  | nil =>
    intro M u v _ hM h hne
    cases M with
    | nil => exact absurd rfl hne
    | cons b M' =>
      rw [encodeL_nil, encodeL_cons] at h
      have : u = [] := by cases u <;> simp_all
      simp [this] at h
  | cons a Lq' ih =>
    intro M u v hL hM h hne
    simp only [List.all_cons, Bool.and_eq_true] at hL
    cases u with
    | nil =>
      cases M with
      | nil => exact absurd rfl hne
      | cons b M' =>
        rw [encodeL_cons, encodeL_cons] at h
        simp only [List.nil_append, List.append_assoc, List.cons_append,
          List.cons.injEq] at h
        obtain ⟨_, h⟩ := h
        simp only [List.all_cons, Bool.and_eq_true] at hM
        have h' : a ++ '>' :: encodeL Lq' =
            b ++ '>' :: (encodeL M' ++ v) := by simpa using h
        obtain ⟨rfl, he⟩ := append_gt_inj _ _ _ _
          (legalLabel_not_gt hL.1) (legalLabel_not_gt hM.1) h'
        by_cases hM' : M' = []
        · subst hM'
          refine ⟨[], Lq', by simp, rfl, ?_⟩
          simpa [encodeL_nil] using he
        · obtain ⟨L1, L2, e1, e2, e3⟩ := ih M' [] v hL.2 hM.2
            (by simpa using he) hM'
          have hL1 : L1 = [] := encodeL_eq_nil e2
          subst hL1
          refine ⟨[], L2, ?_, rfl, e3⟩
          simp only [List.nil_append] at e1
          simp [e1]
    | cons c u' =>
      cases M with
      | nil => exact absurd rfl hne
      | cons b M' =>
        rw [encodeL_cons, encodeL_cons] at h
        simp only [List.cons_append, List.cons.injEq, List.append_assoc] at h
        obtain ⟨rfl, h⟩ := h
        have h2 : a ++ '>' :: encodeL Lq' =
            u' ++ '<' :: (b ++ '>' :: (encodeL M' ++ v)) := by
          simpa using h
        obtain ⟨u'', hu, henc⟩ := factor_after_label a u' (encodeL Lq')
          (b ++ '>' :: (encodeL M' ++ v)) (legalLabel_not_lt hL.1) h2
        have henc' : encodeL Lq' = u'' ++ encodeL (b :: M') ++ v := by
          rw [encodeL_cons]
          simpa [List.append_assoc] using henc
        obtain ⟨L1, L2, e1, e2, e3⟩ := ih (b :: M') u'' v hL.2 hM henc' hne
        refine ⟨a :: L1, L2, by simp [e1], ?_, e3⟩
        rw [encodeL_cons, e2, hu]

/-- C1.  For every valid label pattern `p` (a tag pattern of the dialect,
with hypothesis `wfT`) and every sequence of labels, the regex produced
by the label-pattern compiler matches the encoding of a label sequence
iff `p`, read as an atom-level regex over whole labels, matches that
sequence; moreover every nonempty span of an encoding matched by the
compiled regex is aligned on atom boundaries and corresponds to a
contiguous sub-sequence of labels matched by `p`. -/
theorem claim_C1 (p : TagPattern) (hp : wfT p = true) :
    (∀ M : List Lab, M.all legalLabel = true →
      (CMatch (compileTag p) (encodeL M) ↔ TMatch p M))
    ∧ (∀ Lq : List Lab, Lq.all legalLabel = true →
        ∀ u m v, encodeL Lq = u ++ m ++ v → m ≠ [] →
        CMatch (compileTag p) m →
        ∃ L1 M L2, Lq = L1 ++ M ++ L2 ∧ encodeL L1 = u ∧ encodeL L2 = v ∧
          TMatch p M) := by
  constructor
  · intro M hM
    constructor
    · intro h
      obtain ⟨M', e, g, t⟩ := cmatch_sound h p rfl hp
      rwa [encodeL_inj M M' hM g e]
    · exact tmatch_complete
  · intro Lq hLq u m v hsplit hne hmatch
    obtain ⟨M, e, g, t⟩ := cmatch_sound hmatch p rfl hp
    have hMne : M ≠ [] := by
      rintro rfl
      exact hne (by simpa [encodeL] using e)
    obtain ⟨L1, L2, h1, h2, h3⟩ := encode_split Lq M u v hLq g
      (by rw [← e]; exact hsplit) hMne
    exact ⟨L1, M, L2, h1, h2, h3, t⟩

/-- Witness for C1 at the pattern `<N.*>` and the label sequence
`["NN"]`. -/
theorem claim_C1_witness :
    CMatch (compileTag (.atom (.seq (.lit 'N') (.star .dot))))
        (encodeL [L "NN"]) ↔
      TMatch (.atom (.seq (.lit 'N') (.star .dot))) [L "NN"] :=
  (claim_C1 (.atom (.seq (.lit 'N') (.star .dot))) (by decide)).1
    [L "NN"] (by decide)

/-! ## C6: shape of `as_token_label` outputs -/

theorem mem_of_dropWhile {p : Char → Bool} : ∀ {l : List Char} {c : Char},
    c ∈ l.dropWhile p → c ∈ l := by
  intro l
  induction l with
  | nil => intro c hc; simp [List.dropWhile] at hc
  | cons x r ih =>
    intro c hc
    rw [List.dropWhile_cons] at hc
    by_cases hx : p x
    · rw [if_pos hx] at hc
      exact List.mem_cons_of_mem _ (ih hc)
    · rwa [if_neg hx] at hc

theorem pyWords_chars : ∀ (l w : List Char), w ∈ pyWords l →
    ∀ c ∈ w, c ∈ l ∧ c ≠ ' ' := by
  intro l
  induction l with
  | nil => intro w hw; simp [pyWords] at hw
  | cons x r ih =>
    intro w hw c hc
    by_cases hx : x = ' '
    · rw [pyWords, if_pos hx] at hw
      have := ih w hw c hc
      exact ⟨List.mem_cons_of_mem _ this.1, this.2⟩
    · rw [pyWords, if_neg hx] at hw
      by_cases hh : r.head? = some ' '
      · rw [if_pos hh] at hw
        rcases List.mem_cons.mp hw with hw | hw
        · subst hw
          simp only [List.mem_singleton] at hc
          subst hc
          exact ⟨List.mem_cons_self _ _, hx⟩
        · have := ih w hw c hc
          exact ⟨List.mem_cons_of_mem _ this.1, this.2⟩
      · rw [if_neg hh] at hw
        rcases hr : pyWords r with _ | ⟨w', ws⟩
        · rw [hr] at hw
          simp only [List.mem_singleton] at hw
          subst hw
          simp only [List.mem_singleton] at hc
          subst hc
          exact ⟨List.mem_cons_self _ _, hx⟩
        · rw [hr] at hw
          rcases List.mem_cons.mp hw with hw | hw
          · subst hw
            rcases List.mem_cons.mp hc with hc | hc
            · subst hc; exact ⟨List.mem_cons_self _ _, hx⟩
            · have := ih w' (hr ▸ List.mem_cons_self w' ws) c hc
              exact ⟨List.mem_cons_of_mem _ this.1, this.2⟩
          · have := ih w (hr ▸ List.mem_cons_of_mem _ hw) c hc
            exact ⟨List.mem_cons_of_mem _ this.1, this.2⟩

theorem joinSpaces_chars : ∀ (ws : List (List Char)) (c : Char),
    c ∈ joinSpaces ws → (∃ w ∈ ws, c ∈ w) ∨ c = ' ' := by
  intro ws
  induction ws with
  | nil => intro c hc; simp [joinSpaces] at hc
  | cons w ws ih =>
    intro c hc
    cases ws with
    | nil =>
      simp only [joinSpaces] at hc
      exact Or.inl ⟨w, List.mem_cons_self _ _, hc⟩
    | cons w2 ws' =>
      simp only [joinSpaces, List.mem_append, List.mem_cons] at hc
      rcases hc with hc | hc | hc
      · exact Or.inl ⟨w, List.mem_cons_self _ _, hc⟩
      · exact Or.inr hc
      · rcases ih c hc with ⟨w', hw', hcw⟩ | hsp
        · exact Or.inl ⟨w', List.mem_cons_of_mem _ hw', hcw⟩
        · exact Or.inr hsp

theorem collapseDashPairs_chars : ∀ (l : List Char) (c : Char),
    c ∈ collapseDashPairs l → c ∈ l
  | [], c, hc => by simp [collapseDashPairs] at hc
  | [d], c, hc => by simpa [collapseDashPairs] using hc
  | x :: d :: r, c, hc => by
    rw [collapseDashPairs] at hc
    by_cases hxd : x = '-' && d = '-'
    · rw [if_pos hxd] at hc
      rcases List.mem_cons.mp hc with hc | hc
      · simp only [Bool.and_eq_true, decide_eq_true_eq] at hxd
        simp [hc, hxd.1]
      · exact List.mem_cons_of_mem _ (List.mem_cons_of_mem _
          (collapseDashPairs_chars r c hc))
    · rw [if_neg hxd] at hc
      rcases List.mem_cons.mp hc with hc | hc
      · simp [hc]
      · exact List.mem_cons_of_mem _ (collapseDashPairs_chars (d :: r) c hc)

theorem pyStripDash_chars {l : List Char} {c : Char}
    (h : c ∈ pyStripDash l) : c ∈ l := by
  simp only [pyStripDash, List.mem_reverse] at h
  exact mem_of_dropWhile (List.mem_reverse.mp (mem_of_dropWhile h))

theorem dropWhile_head_not {p : Char → Bool} : ∀ {l t : List Char} {c : Char},
    l.dropWhile p = c :: t → p c = false := by
  intro l
  induction l with
  | nil => intro t c h; simp [List.dropWhile] at h
  | cons x r ih =>
    intro t c h
    rw [List.dropWhile_cons] at h
    by_cases hx : p x
    · rw [if_pos hx] at h; exact ih h
    · rw [if_neg hx] at h
      cases h
      simpa using hx

/-- After `strip('-')` the string does not end with a dash. -/
theorem pyStripDash_getLast (l : List Char) :
    ∀ c, (pyStripDash l).getLast? = some c → c ≠ '-' := by
  intro c hc
  rw [pyStripDash, List.getLast?_reverse] at hc
  rcases hd : (l.dropWhile (fun c => c = '-')).reverse.dropWhile
      (fun c => c = '-') with _ | ⟨x, t⟩
  · rw [hd] at hc; simp at hc
  · rw [hd] at hc
    simp only [List.head?_cons, Option.some.injEq] at hc
    subst hc
    simpa using dropWhile_head_not hd

theorem getLast_dropWhile {p : Char → Bool} : ∀ (l : List Char),
    (∀ c, l.getLast? = some c → c ≠ '-') →
    ∀ c, (l.dropWhile p).getLast? = some c → c ≠ '-' := by
  intro l
  induction l with
  | nil => intro _ c hc; simp [List.dropWhile] at hc
  | cons x r ih =>
    intro hl c hc
    rw [List.dropWhile_cons] at hc
    by_cases hx : p x
    · rw [if_pos hx] at hc
      cases r with
      | nil => simp [List.dropWhile] at hc
      | cons y r' =>
        exact ih (fun d hd => hl d (by rwa [List.getLast?_cons_cons])) c hc
    · rw [if_neg hx] at hc
      exact hl c hc

/-- C6 as stated is false: `as_token_label("1-A")` is `"-A"`, which is
neither empty nor of the claimed well-formed shape (it starts with a
dash). -/
theorem claim_C6_counterexample :
    asTokenLabel (L "1-A") = L "-A" ∧
      specWellFormedLabel (L "-A") = false ∧ L "-A" ≠ [] := by
  refine ⟨by decide, by decide, by decide⟩

/-- C6 amended.  `as_token_label` always returns a string over
`[A-Z0-9-]` that does not start with a digit and does not end with a
dash; but it can start with a dash (digit-stripping runs after
dash-stripping) and can keep `--` runs (the collapse is one pass), so
the result is not always empty or of the spec's well-formed shape. -/
theorem claim_C6_amended (s : List Char) :
    (asTokenLabel s).all isWordChar = true ∧
      (∀ c t, asTokenLabel s = c :: t → c.isDigit = false) ∧
      (∀ c, (asTokenLabel s).getLast? = some c → c ≠ '-') := by
  refine ⟨?_, ?_, ?_⟩
  · rw [List.all_eq_true]
    intro c hc
    have hc1 : c ∈ pyStripDash (collapseDashPairs (spaceToDash
        (joinSpaces (pyWords (onlyWordchars (pyUpper s)))))) :=
      mem_of_dropWhile hc
    have hc2 := collapseDashPairs_chars _ _ (pyStripDash_chars hc1)
    simp only [spaceToDash, List.mem_map] at hc2
    obtain ⟨d, hd, rfl⟩ := hc2
    by_cases hsp : d = ' '
    · simp [hsp, isWordChar]
    · rw [if_neg hsp]
      rcases joinSpaces_chars _ _ hd with ⟨w, hw, hdw⟩ | hsp2
      · obtain ⟨hmem, -⟩ := pyWords_chars _ _ hw _ hdw
        simp only [onlyWordchars, List.mem_map] at hmem
        obtain ⟨e, -, he⟩ := hmem
        by_cases hwc : isWordChar e
        · rw [if_pos hwc] at he
          exact he ▸ hwc
        · rw [if_neg hwc] at he
          exact absurd he.symm hsp
      · exact absurd hsp2 hsp
  · intro c t h
    simpa using dropWhile_head_not h
  · exact getLast_dropWhile _ (pyStripDash_getLast _)

/-! ## C10: ChunkString construction rejects non-tuple, non-Tree
children -/

/-- C10.  Building a `ChunkString` from a tree one of whose immediate
children is neither a `(value, label)` tuple nor a `Tree` — in
particular a pygmars `Token` object — raises
`ValueError("chunk structures must contain tagged tokens or trees")`
before any rule can run. -/
theorem claim_C10 (root : Lab) (children : List PItem) (d : Nat)
    (tok : PyToken) (hmem : PItem.obj tok ∈ children) :
    mkChunkString root children d =
      .error "chunk structures must contain tagged tokens or trees" := by
  have herr : tagsOf children =
      .error "chunk structures must contain tagged tokens or trees" := by
    induction children with
    | nil => cases hmem
    | cons x r ih =>
      rcases List.mem_cons.mp hmem with hx | hx
      · rw [← hx]
        simp [tagsOf, tagOf]
      · cases x with
        | tup v l => simp only [tagsOf, tagOf, ih hx]
        | obj t => simp [tagsOf, tagOf]
        | tree l cs => simp only [tagsOf, tagOf, ih hx]
  simp [mkChunkString, herr]

/-- Witness for C10: a root whose single child is a pygmars `Token`
object. -/
theorem claim_C10_witness :
    mkChunkString (L "S")
        [PItem.obj ⟨L "word", some (L "NN"), some 1, some 0⟩] 1 =
      .error "chunk structures must contain tagged tokens or trees" :=
  claim_C10 _ _ _ _ (List.mem_cons_self _ _)

/-! ## C3: parsing an empty tree -/

/-- C3 as stated is false: `RegexpChunkParser.parse` on a tree with zero
children does not raise; it prints a warning and returns the empty tree
`Tree(self._root_label, [])`. -/
theorem claim_C3_counterexample :
    rcparse ⟨[fun s => s], L "NP", L "S"⟩ (.tr (L "S") []) =
        .ok (L "S", []) ∧
      ∀ msg, rcparse ⟨[fun s => s], L "NP", L "S"⟩ (.tr (L "S") []) ≠
        .error msg := by
  refine ⟨rfl, ?_⟩
  intro msg h
  simp [rcparse, lengthV] at h

/-- C3 amended.  On an input tree with zero children, `parse` returns
`Tree(root_label, [])` (after printing a warning); no error is raised
and no rule is applied. -/
theorem claim_C3_amended (P : RCParser) (v : ChunkStructV)
    (h : lengthV v = 0) : rcparse P v = .ok (P.rootLabel, []) := by
  simp [rcparse, h]

/-- Witness for C3 (amended) at a concrete parser and empty tree. -/
theorem claim_C3_witness :
    rcparse ⟨[fun s => s], L "NP", L "S"⟩ (.tr (L "SENTENCE") []) =
      .ok (L "S", []) :=
  claim_C3_amended ⟨[fun s => s], L "NP", L "S"⟩ (.tr (L "SENTENCE") []) rfl

/-! ## Structure of valid chunkstrings -/

theorem not_delim (c : Char) (h : isDelim c = false) :
    c ≠ '<' ∧ c ≠ '>' ∧ c ≠ '{' ∧ c ≠ '}' := by
  simp only [isDelim, Bool.or_eq_false_iff, decide_eq_false_iff_not] at h
  exact ⟨h.1.1.1, h.1.1.2, h.1.2, h.2⟩

/-- Scanning a delimiter-free block followed by `'>'` from inside an
atom. -/
theorem pcRun_inTag : ∀ (a : List Char) (acc rest : List Char),
    legalLabel a = true →
    pcRun (a ++ '>' :: rest) (.inTag acc) =
      if acc.reverse ++ a = [] then none
      else (pcRun rest (.boundary true)).map ((acc.reverse ++ a) :: ·) := by
  intro a
  induction a with
  | nil =>
    intro acc rest _
    simp only [List.nil_append, pcRun, if_pos rfl]
    rcases acc with _ | ⟨x, acc'⟩ <;> simp [List.isEmpty]
  | cons c a' ih =>
    intro acc rest hleg
    simp only [legalLabel, List.all_cons, Bool.and_eq_true,
      Bool.not_eq_eq_eq_not, Bool.not_true] at hleg
    have hnd : isDelim c = false := hleg.1
    have hc := not_delim c hnd
    simp only [List.cons_append, pcRun, if_neg hc.2.1, hnd,
      Bool.false_eq_true, if_false, List.append_eq]
    rw [ih (c :: acc) rest (by simp [legalLabel, hleg.2])]
    simp [List.reverse_cons, List.append_assoc]

/-- The scanner accepts the encoding of good tags and returns exactly
those tags. -/
theorem pcRun_encode : ∀ (tags : List Lab) (b : Bool),
    tags.all goodTag = true →
    pcRun (encodeL tags) (.boundary b) = some tags := by
  intro tags
  induction tags with
  | nil => intro b _; simp [encodeL, pcRun]
  | cons a r ih =>
    intro b htags
    simp only [List.all_cons, Bool.and_eq_true, goodTag] at htags
    obtain ⟨⟨hne, hleg⟩, hrest⟩ := htags
    rw [encodeL_cons]
    have step : pcRun ('<' :: (a ++ '>' :: encodeL r)) (.boundary b) =
        pcRun (a ++ '>' :: encodeL r) (.inTag []) := rfl
    rw [step, pcRun_inTag a [] (encodeL r) hleg]
    simp only [List.reverse_nil, List.nil_append]
    rw [if_neg (by simpa [List.isEmpty_iff] using hne)]
    rw [ih true (by simpa [goodTag] using hrest)]
    rfl

/-- The encoding of legal tags contains no brace. -/
theorem curlyOf_encode (tags : List Lab) (h : tags.all legalLabel = true) :
    curlyOf (encodeL tags) = [] := by
  induction tags with
  | nil => rfl
  | cons a r ih =>
    simp only [List.all_cons, Bool.and_eq_true] at h
    rw [encodeL_cons]
    have h1 : List.filter (fun c => c = '{' || c = '}') a = [] := by
      rw [List.filter_eq_nil_iff]
      intro c hc
      have := List.all_eq_true.mp h.1 _ hc
      simp only [Bool.not_eq_eq_eq_not, Bool.not_true, isDelim,
        Bool.or_eq_false_iff, decide_eq_false_iff_not] at this
      simp [this.1.2, this.2]
    have h2 := ih h.2
    simp only [curlyOf] at h2 ⊢
    simp [List.filter_cons, List.filter_append, h1, h2]

theorem pcRun_boundary_head {d : Char} {r : List Char} {b : Bool}
    {tags : List Lab} (h : pcRun (d :: r) (.boundary b) = some tags) :
    d = '{' ∨ d = '<' ∨ (d = '}' ∧ b = true) := by
  by_cases h1 : d = '{'
  · exact Or.inl h1
  by_cases h2 : d = '<'
  · exact Or.inr (Or.inl h2)
  by_cases h3 : d = '}'
  · cases b with
    | false =>
      simp only [pcRun, if_neg h1, if_neg h2, if_pos h3] at h
      simp at h
    | true => exact Or.inr (Or.inr ⟨h3, rfl⟩)
  · simp only [pcRun, if_neg h1, if_neg h2, if_neg h3] at h
    simp at h

theorem pcRun_afterBrace_head {d : Char} {r : List Char}
    {tags : List Lab} (h : pcRun (d :: r) .afterBrace = some tags) :
    d = '<' := by
  by_cases h2 : d = '<'
  · exact h2
  · simp only [pcRun, if_neg h2] at h
    simp at h

theorem pcRun_inTag_head {d : Char} {r : List Char} {acc : List Char}
    {tags : List Lab} (h : pcRun (d :: r) (.inTag acc) = some tags) :
    d = '>' ∨ isDelim d = false := by
  by_cases hgt : d = '>'
  · exact Or.inl hgt
  by_cases hdel : isDelim d = true
  · simp only [pcRun, if_neg hgt, if_pos hdel] at h
    simp at h
  · exact Or.inr (by simpa using hdel)

theorem sdr_delim_delim {c d : Char} {r : List Char}
    (hc : isDelim c = true) (hd : isDelim d = true) :
    sdr (c :: d :: r) = sdr (d :: r) := by
  simp [sdr, hc, hd]

theorem sdr_delim_nondelim {c d : Char} {r : List Char}
    (hc : isDelim c = true) (hd : isDelim d = false) :
    sdr (c :: d :: r) = [] :: sdr (d :: r) := by
  simp [sdr, hc, hd]

theorem sdr_nondelim {c : Char} {r : List Char} (hc : isDelim c = false) :
    sdr (c :: r) = (sdr r).modifyHead (c :: ·) := by
  simp [sdr, hc]

/-- What `tag_splitter` produces on a string accepted by the `is_valid`
scanner, in terms of the scanner state. -/
theorem sdr_of_pcRun : ∀ (s : List Char) (st : VState) (tags : List Lab),
    pcRun s st = some tags →
    (match st with
     | .boundary _ => s = [] ∨ sdr s = [] :: tags ++ [[]]
     | .afterBrace => sdr s = [] :: tags ++ [[]]
     | .inTag acc => ∃ t rest, tags = (acc.reverse ++ t) :: rest ∧
         sdr s = t :: (rest ++ [[]])) := by
  intro s
  induction s with
  | nil =>
    intro st tags h
    cases st with
    | boundary b => exact Or.inl rfl
    | afterBrace => simp [pcRun] at h
    | inTag acc => simp [pcRun] at h
  | cons c r ih =>
    intro st tags h
    cases st with
    | boundary b =>
      refine Or.inr ?_
      rcases pcRun_boundary_head h with h1 | h2 | ⟨h3, hb⟩
      · -- c = '{' : an atom must follow
        subst h1
        have h' : pcRun r .afterBrace = some tags := by
          simpa only [pcRun, if_pos rfl] using h
        have hr := ih .afterBrace tags h'
        cases r with
        | nil => simp [pcRun] at h'
        | cons d r' =>
          have hd := pcRun_afterBrace_head h'
          rw [sdr_delim_delim (by decide) (by simp [hd, isDelim])]
          exact hr
      · -- c = '<' : entering an atom
        subst h2
        have h' : pcRun r (.inTag []) = some tags := by
          simpa only [pcRun, if_neg (by decide : ¬('<' : Char) = '{'),
            if_pos rfl] using h
        obtain ⟨t, rest, htags, hsdr⟩ := ih (.inTag []) tags h'
        simp only [List.reverse_nil, List.nil_append] at htags
        cases r with
        | nil => simp [pcRun] at h'
        | cons d r' =>
          rcases pcRun_inTag_head h' with hgt | hd
          · subst hgt
            simp only [pcRun, if_pos rfl, List.isEmpty_nil, if_pos rfl] at h'
            simp at h'
          · rw [sdr_delim_nondelim (by decide) hd, hsdr, htags]
            rfl
      · -- c = '}' after an atom
        subst h3
        cases hb
        have h' : pcRun r (.boundary false) = some tags := by
          simpa only [pcRun, if_neg (by decide : ¬('}' : Char) = '{'),
            if_neg (by decide : ¬('}' : Char) = '<'), if_pos rfl,
            if_pos rfl] using h
        cases r with
        | nil =>
          have : tags = [] := by
            have := h'.symm
            simp only [pcRun] at this
            simpa using this
          subst this
          rfl
        | cons d r' =>
          rcases ih (.boundary false) tags h' with he | hsdr
          · exact absurd he (by simp)
          · have hd : isDelim d = true := by
              rcases pcRun_boundary_head h' with h1 | h2 | ⟨_, hb'⟩
              · simp [isDelim, h1]
              · simp [isDelim, h2]
              · cases hb'
            rw [sdr_delim_delim (by decide) hd]
            exact hsdr
    | afterBrace =>
      have h2 := pcRun_afterBrace_head h
      subst h2
      have h' : pcRun r (.inTag []) = some tags := by
        simpa only [pcRun, if_pos rfl] using h
      obtain ⟨t, rest, htags, hsdr⟩ := ih (.inTag []) tags h'
      simp only [List.reverse_nil, List.nil_append] at htags
      cases r with
      | nil => simp [pcRun] at h'
      | cons d r' =>
        rcases pcRun_inTag_head h' with hgt | hd
        · subst hgt
          simp only [pcRun, if_pos rfl, List.isEmpty_nil, if_pos rfl] at h'
          simp at h'
        · rw [sdr_delim_nondelim (by decide) hd, hsdr, htags]
          rfl
    | inTag acc =>
      rcases pcRun_inTag_head h with hgt | hdel
      · -- c = '>' : closing the atom
        subst hgt
        have step : pcRun ('>' :: r) (.inTag acc) =
            (if acc.isEmpty then none
             else (pcRun r (.boundary true)).map (acc.reverse :: ·)) := rfl
        rw [step] at h
        by_cases hacc : acc.isEmpty = true
        · rw [if_pos hacc] at h
          simp at h
        · rw [if_neg hacc] at h
          rcases hpc : pcRun r (.boundary true) with _ | ts
          · rw [hpc] at h; simp at h
          · rw [hpc] at h
            simp only [Option.map_some', Option.some.injEq] at h
            refine ⟨[], ts, by simp [← h], ?_⟩
            cases r with
            | nil =>
              have : ts = [] := by
                have := hpc.symm
                simp only [pcRun] at this
                simpa using this
              subst this
              rfl
            | cons d r' =>
              rcases ih (.boundary true) ts hpc with he | hsdr
              · exact absurd he (by simp)
              · have hd : isDelim d = true := by
                  rcases pcRun_boundary_head hpc with h1 | h2 | ⟨h3, _⟩
                  · simp [isDelim, h1]
                  · simp [isDelim, h2]
                  · simp [isDelim, h3]
                rw [sdr_delim_delim (by decide) hd]
                exact hsdr
      · -- c inside the atom
        have hgt : ¬c = '>' := by
          intro hc
          rw [hc] at hdel
          simp [isDelim] at hdel
        have h' : pcRun r (.inTag (c :: acc)) = some tags := by
          simpa only [pcRun, if_neg hgt, hdel, Bool.false_eq_true,
            if_false] using h
        obtain ⟨t', rest, htags, hsdr⟩ := ih (.inTag (c :: acc)) tags h'
        refine ⟨c :: t', rest, ?_, ?_⟩
        · rw [htags]
          simp [List.reverse_cons, List.append_assoc]
        · rw [sdr_nondelim hdel, hsdr]
          rfl

/-- Number of `<` characters of an accepted string, by scanner state. -/
theorem count_of_pcRun : ∀ (s : List Char) (st : VState) (tags : List Lab),
    pcRun s st = some tags →
    (match st with
     | .inTag _ => s.count '<' + 1 = tags.length
     | _ => s.count '<' = tags.length) := by
  intro s
  induction s with
  | nil =>
    intro st tags h
    cases st with
    | boundary b =>
      have : tags = [] := by simpa [pcRun] using h.symm
      simp [this]
    | afterBrace => simp [pcRun] at h
    | inTag acc => simp [pcRun] at h
  | cons c r ih =>
    intro st tags h
    cases st with
    | boundary b =>
      rcases pcRun_boundary_head h with h1 | h2 | ⟨h3, hb⟩
      · subst h1
        have h' : pcRun r .afterBrace = some tags := by
          simpa only [pcRun, if_pos rfl] using h
        have := ih .afterBrace tags h'
        simpa [List.count_cons] using this
      · subst h2
        have h' : pcRun r (.inTag []) = some tags := by
          simpa only [pcRun, if_neg (by decide : ¬('<' : Char) = '{'),
            if_pos rfl] using h
        have := ih (.inTag []) tags h'
        simpa [List.count_cons] using this
      · subst h3
        cases hb
        have h' : pcRun r (.boundary false) = some tags := by
          simpa only [pcRun, if_neg (by decide : ¬('}' : Char) = '{'),
            if_neg (by decide : ¬('}' : Char) = '<'), if_pos rfl,
            if_pos rfl] using h
        have := ih (.boundary false) tags h'
        simpa [List.count_cons] using this
    | afterBrace =>
      have h2 := pcRun_afterBrace_head h
      subst h2
      have h' : pcRun r (.inTag []) = some tags := by
        simpa only [pcRun, if_pos rfl] using h
      have := ih (.inTag []) tags h'
      simpa [List.count_cons] using this
    | inTag acc =>
      rcases pcRun_inTag_head h with hgt | hdel
      · subst hgt
        have step : pcRun ('>' :: r) (.inTag acc) =
            (if acc.isEmpty then none
             else (pcRun r (.boundary true)).map (acc.reverse :: ·)) := rfl
        rw [step] at h
        by_cases hacc : acc.isEmpty = true
        · rw [if_pos hacc] at h; simp at h
        · rw [if_neg hacc] at h
          rcases hpc : pcRun r (.boundary true) with _ | ts
          · rw [hpc] at h; simp at h
          · rw [hpc] at h
            simp only [Option.map_some', Option.some.injEq] at h
            have := ih (.boundary true) ts hpc
            simp only at this
            simp [List.count_cons, ← h, this]
      · have hgt : ¬c = '>' := by
          intro hc
          rw [hc] at hdel
          simp [isDelim] at hdel
        have h' : pcRun r (.inTag (c :: acc)) = some tags := by
          simpa only [pcRun, if_neg hgt, hdel, Bool.false_eq_true,
            if_false] using h
        have := ih (.inTag (c :: acc)) tags h'
        have hlt : ¬c = '<' := by
          intro hc
          rw [hc] at hdel
          simp [isDelim] at hdel
        simp only at this
        simpa [List.count_cons, hlt] using this

/-- `tag_splitter(s)[1:-1]` on an accepted string is exactly the atom
contents. -/
theorem tagsFromStr_of_pcRun {s : List Char} {tags : List Lab}
    (h : pcRun s (.boundary false) = some tags) : tagsFromStr s = tags := by
  cases s with
  | nil =>
    have : tags = [] := by simpa [pcRun] using h.symm
    subst this
    rfl
  | cons c r =>
    rcases sdr_of_pcRun (c :: r) (.boundary false) tags h with he | hsdr
    · exact absurd he (by simp)
    · simp only [tagsFromStr, hsdr, List.drop_succ_cons, List.drop_zero]
      exact List.dropLast_concat

theorem splitOnBraces_ne_nil : ∀ (s : List Char), splitOnBraces s ≠ [] := by
  intro s
  induction s with
  | nil => simp [splitOnBraces]
  | cons c r ih =>
    simp only [splitOnBraces]
    by_cases hc : c = '{' || c = '}'
    · simp [hc]
    · rw [if_neg hc]
      rcases h : splitOnBraces r with _ | ⟨p, ps⟩
      · exact absurd h ih
      · simp [List.modifyHead]

/-- Brace-splitting distributes the `<` count over the regions. -/
theorem splitOnBraces_count : ∀ (s : List Char),
    ((splitOnBraces s).map (fun reg => reg.count '<')).sum = s.count '<' := by
  intro s
  induction s with
  | nil => simp [splitOnBraces]
  | cons c r ih =>
    simp only [splitOnBraces]
    by_cases hc : c = '{' || c = '}'
    · rw [if_pos hc]
      have hne : ¬c = '<' := by
        rcases Bool.or_eq_true_iff.mp hc with h | h <;>
          simp only [decide_eq_true_eq] at h <;> simp [h]
      simp [List.count_cons, hne, ih]
    · rw [if_neg hc]
      rcases h : splitOnBraces r with _ | ⟨p, ps⟩
      · exact absurd h (splitOnBraces_ne_nil r)
      · rw [h] at ih
        simp only [List.modifyHead, List.map_cons, List.sum_cons] at ih ⊢
        simp only [List.count_cons] at ih ⊢
        omega

/-- A string with no braces splits into a single region. -/
theorem splitOnBraces_no_braces : ∀ (s : List Char), curlyOf s = [] →
    splitOnBraces s = [s] := by
  intro s
  induction s with
  | nil => intro _; rfl
  | cons c r ih =>
    intro h
    simp only [curlyOf, List.filter_cons] at h
    by_cases hc : c = '{' || c = '}'
    · rw [if_pos hc] at h
      simp at h
    · rw [if_neg hc] at h
      simp only [splitOnBraces]
      rw [if_neg hc, ih h]
      simp [List.modifyHead]

/-- The piece-distribution loop keeps the leaves of the consumed
pieces, in order. -/
theorem distribute_leaves (cl : Lab) : ∀ (regs : List (List Char))
    (ps : List PItem) (b : Bool),
    leavesL (distribute cl regs ps b) =
      leavesL (ps.take ((regs.map (fun reg => reg.count '<')).sum)) := by
  intro regs
  induction regs with
  | nil => intro ps b; simp [distribute, leavesL]
  | cons reg rest ih =>
    intro ps b
    simp only [distribute, List.map_cons, List.sum_cons]
    rw [leavesL_append, List.take_add, leavesL_append, ih]
    cases b with
    | false => rfl
    | true => simp [leavesL, leavesI]

def goodPiece : PItem → Bool
  | .tup _ l => goodTag l
  | .tree l _ => goodTag l
  | .obj _ => false

theorem tagsOf_good : ∀ (l : List PItem), l.all goodPiece = true →
    ∃ tags, tagsOf l = .ok tags ∧ tags.all goodTag = true ∧
      tags.length = l.length := by
  intro l
  induction l with
  | nil => intro _; exact ⟨[], rfl, rfl, rfl⟩
  | cons x r ih =>
    intro h
    simp only [List.all_cons, Bool.and_eq_true] at h
    obtain ⟨tags, htags, hg, hlen⟩ := ih h.2
    cases x with
    | tup v lab =>
      refine ⟨lab :: tags, ?_, ?_, by simp [hlen]⟩
      · simp [tagsOf, tagOf, htags]
      · simp only [List.all_cons, Bool.and_eq_true]
        exact ⟨h.1, hg⟩
    | tree lab cs =>
      refine ⟨lab :: tags, ?_, ?_, by simp [hlen]⟩
      · simp [tagsOf, tagOf, htags]
      · simp only [List.all_cons, Bool.and_eq_true]
        exact ⟨h.1, hg⟩
    | obj t => simp [goodPiece] at h

theorem goodTag_legal {tags : List Lab} (h : tags.all goodTag = true) :
    tags.all legalLabel = true := by
  rw [List.all_eq_true] at h ⊢
  intro t ht
  have := h t ht
  simp only [goodTag, Bool.and_eq_true] at this
  exact this.2

/-- `"<" + "><".join(tags) + ">"` is the atom-per-label encoding when
there is at least one tag. -/
theorem mkstr_eq_encode : ∀ (tags : List Lab), tags ≠ [] →
    '<' :: List.intercalate ['>', '<'] tags ++ ['>'] = encodeL tags := by
  intro tags
  induction tags with
  | nil => intro h; exact absurd rfl h
  | cons a r ih =>
    intro _
    cases r with
    | nil =>
      simp [List.intercalate, List.intersperse, encodeL]
    | cons b r' =>
      have hih := ih (by simp)
      rw [encodeL_cons]
      simp only [List.intercalate, List.intersperse] at hih ⊢
      simp only [List.flatten] at hih ⊢
      rw [← hih]
      simp

/-- `_verify` succeeds at level 1 when the string is accepted by the
scanner, the braces check passes, and the atom contents are the piece
labels. -/
theorem verifyCS_ok_of {pieces : List PItem} {s : List Char}
    {tags : List Lab} (hval : pcRun s (.boundary false) = some tags)
    (hcb : chunkedBraceCheck (curlyOf s) = true)
    (htagsOf : tagsOf pieces = .ok tags) :
    verifyCS pieces s 1 = .ok () := by
  simp [verifyCS, isValidChunk, hval, hcb, tagsFromStr_of_pcRun hval,
    htagsOf]

/-- What `_verify` at level 1 guarantees when it returns. -/
theorem verifyCS_ok_inv {pieces : List PItem} {s : List Char}
    (h : verifyCS pieces s 1 = .ok ()) :
    ∃ tags, pcRun s (.boundary false) = some tags ∧
      chunkedBraceCheck (curlyOf s) = true ∧
      tagsOf pieces = .ok tags ∧ tagsFromStr s = tags := by
  by_cases h1 : isValidChunk s = true
  case neg => simp [verifyCS, h1] at h
  obtain ⟨tags, hval⟩ : ∃ tags, pcRun s (.boundary false) = some tags := by
    simpa [isValidChunk, Option.isSome_iff_exists] using h1
  by_cases h2 : chunkedBraceCheck (curlyOf s) = true
  case neg => simp [verifyCS, h1, h2] at h
  rcases ht : tagsOf pieces with err | tags2
  · simp [verifyCS, h1, h2, ht] at h
  · by_cases h3 : tagsFromStr s = tags2
    · refine ⟨tags, hval, h2, ?_, tagsFromStr_of_pcRun hval⟩
      have he : tags2 = tags := by rw [← h3, tagsFromStr_of_pcRun hval]
      rw [he]
    · simp [verifyCS, h1, h2, ht, h3] at h

/-- C5.  Building a `ChunkString` from a tree whose children are tagged
tokens or trees (with nonempty, delimiter-free labels, per the data
model) and converting straight back with `to_chunkstruct(t.label)`
returns exactly the original tree: same label, same children, no
transform applied in between. -/
theorem claim_C5 (lbl : Lab) (children : List PItem)
    (hne : children ≠ []) (hgood : children.all goodPiece = true) :
    ∃ cs, mkChunkString lbl children 1 = .ok cs ∧
      toChunkstruct cs lbl = .ok (lbl, children) := by
  obtain ⟨tags, htags, hg, hlen⟩ := tagsOf_good children hgood
  have htagsne : tags ≠ [] := by
    intro h
    subst h
    exact hne (List.length_eq_zero.mp hlen.symm)
  have hstr := mkstr_eq_encode tags htagsne
  refine ⟨{ rootLabel := lbl, pieces := children, str := encodeL tags,
            debug := 1 }, ?_, ?_⟩
  · simp only [mkChunkString, htags]
    rw [hstr]
  · have hval : pcRun (encodeL tags) (.boundary false) = some tags :=
      pcRun_encode tags false hg
    have hcur : curlyOf (encodeL tags) = [] :=
      curlyOf_encode tags (goodTag_legal hg)
    have hcb : chunkedBraceCheck (curlyOf (encodeL tags)) = true := by
      rw [hcur]; rfl
    have hver := verifyCS_ok_of hval hcb htags
    have hcount : (encodeL tags).count '<' = tags.length := by
      have := count_of_pcRun _ _ _ hval
      simpa using this
    simp only [toChunkstruct]
    rw [if_pos (by norm_num)]
    rw [hver]
    rw [splitOnBraces_no_braces _ hcur]
    simp [distribute, hcount, hlen, List.take_length]

/-- Witness for C5: a depth-3 tree with mixed tuple and subtree
children. -/
theorem claim_C5_witness :
    ∃ cs, mkChunkString (L "ROOT")
        [PItem.tup (L "the") (L "DT"),
         PItem.tree (L "NP")
           [PItem.tup (L "big") (L "JJ"),
            PItem.tree (L "NN-GRP") [PItem.tup (L "dog") (L "NN")]],
         PItem.tup (L "ran") (L "VBD")] 1 = .ok cs ∧
      toChunkstruct cs (L "ROOT") =
        .ok (L "ROOT",
          [PItem.tup (L "the") (L "DT"),
           PItem.tree (L "NP")
             [PItem.tup (L "big") (L "JJ"),
              PItem.tree (L "NN-GRP") [PItem.tup (L "dog") (L "NN")]],
           PItem.tup (L "ran") (L "VBD")]) :=
  claim_C5 (L "ROOT") _ (by simp) (by decide)

/-! ## C2: leaf preservation through the full parser -/

theorem tagsOf_length : ∀ (l : List PItem) (tags : List Lab),
    tagsOf l = .ok tags → tags.length = l.length := by
  intro l
  induction l with
  | nil =>
    intro tags h
    simp only [tagsOf, Except.ok.injEq] at h
    simp [← h]
  | cons x r ih =>
    intro tags h
    simp only [tagsOf] at h
    rcases hx : tagOf x with e | t
    · rw [hx] at h; simp at h
    · rw [hx] at h
      rcases hr : tagsOf r with e | ts
      · rw [hr] at h; simp at h
      · rw [hr] at h
        simp only [Except.ok.injEq] at h
        subst h
        simp [ih ts hr]

theorem mkChunkString_fields {root : Lab} {children : List PItem} {d : Nat}
    {cs : ChunkStringM} (h : mkChunkString root children d = .ok cs) :
    cs.rootLabel = root ∧ cs.pieces = children ∧ cs.debug = d := by
  simp only [mkChunkString] at h
  rcases ht : tagsOf children with e | tags
  · rw [ht] at h; simp at h
  · rw [ht] at h
    simp only [Except.ok.injEq] at h
    subst h
    exact ⟨rfl, rfl, rfl⟩

theorem applyTransform_fields {cs cs' : ChunkStringM}
    {f : List Char → List Char} (h : applyTransform cs f = .ok cs') :
    cs'.pieces = cs.pieces ∧ cs'.rootLabel = cs.rootLabel ∧
      cs'.debug = cs.debug := by
  simp only [applyTransform] at h
  by_cases hd : cs.debug > 1
  · rw [if_pos hd] at h
    rcases hv : verifyCS cs.pieces (removeCurly (f cs.str)) (cs.debug - 2)
      with e | u
    · rw [hv] at h; simp at h
    · rw [hv] at h
      simp only [Except.ok.injEq] at h
      subst h
      exact ⟨rfl, rfl, rfl⟩
  · rw [if_neg hd] at h
    simp only [Except.ok.injEq] at h
    subst h
    exact ⟨rfl, rfl, rfl⟩

theorem applyRules_fields : ∀ (fs : List (List Char → List Char))
    (cs cs' : ChunkStringM), applyRules fs cs = .ok cs' →
    cs'.pieces = cs.pieces ∧ cs'.rootLabel = cs.rootLabel ∧
      cs'.debug = cs.debug := by
  intro fs
  induction fs with
  | nil =>
    intro cs cs' h
    simp only [applyRules, Except.ok.injEq] at h
    subst h
    exact ⟨rfl, rfl, rfl⟩
  | cons f fs ih =>
    intro cs cs' h
    simp only [applyRules] at h
    rcases ha : applyTransform cs f with e | cs1
    · rw [ha] at h; simp at h
    · rw [ha] at h
      obtain ⟨h1, h2, h3⟩ := applyTransform_fields ha
      obtain ⟨g1, g2, g3⟩ := ih cs1 cs' h
      exact ⟨g1.trans h1, g2.trans h2, g3.trans h3⟩

/-- `to_chunkstruct` at debug level > 0 returns the root label and a
tree with exactly the leaves of the pieces. -/
theorem toChunkstruct_leaves {cs : ChunkStringM} {cl l : Lab}
    {out : List PItem} (hd : cs.debug > 0)
    (h : toChunkstruct cs cl = .ok (l, out)) :
    l = cs.rootLabel ∧ leavesL out = leavesL cs.pieces := by
  simp only [toChunkstruct, if_pos hd] at h
  rcases hv : verifyCS cs.pieces cs.str 1 with e | u
  · rw [hv] at h; simp at h
  · cases u
    rw [hv] at h
    simp only [Except.ok.injEq, Prod.mk.injEq] at h
    obtain ⟨hl, hout⟩ := h
    refine ⟨hl.symm, ?_⟩
    obtain ⟨tags, hval, hcb, htagsOf, htfs⟩ := verifyCS_ok_inv hv
    rw [← hout, distribute_leaves, splitOnBraces_count]
    have hc : cs.str.count '<' = tags.length := by
      simpa using count_of_pcRun _ _ _ hval
    rw [hc, tagsOf_length _ _ htagsOf, List.take_length]

/-- The leaves of a `chunk_struct` value. -/
def leavesV : ChunkStructV → List PItem
  | .lst items => leavesL items
  | .tr _ children => leavesL children

/-- One `RegexpChunkParser.parse` call preserves the leaves of its
input, whatever the rules' transformations do to the string. -/
theorem rcparse_leaves {P : RCParser} {v : ChunkStructV} {l : Lab}
    {out : List PItem} (h : rcparse P v = .ok (l, out)) :
    leavesL out = leavesV v := by
  by_cases h0 : lengthV v = 0
  · simp only [rcparse, if_pos h0, Except.ok.injEq, Prod.mk.injEq] at h
    obtain ⟨_, hout⟩ := h
    rw [← hout]
    cases v with
    | lst items =>
      cases items with
      | nil => rfl
      | cons x r => simp [lengthV] at h0
    | tr lab children =>
      cases children with
      | nil => rfl
      | cons x r => simp [lengthV] at h0
  · cases v with
    | lst items =>
      simp only [rcparse, if_neg h0, asTreeV] at h
      split at h
      next e heq => simp at h
      next cs heq =>
        split at h
        next e heq2 => simp at h
        next cs2 heq2 =>
          obtain ⟨m1, m2, m3⟩ := mkChunkString_fields heq
          obtain ⟨a1, a2, a3⟩ := applyRules_fields _ _ _ heq2
          have hdbg : cs2.debug > 0 := by rw [a3, m3]; norm_num
          obtain ⟨-, hleaves⟩ := toChunkstruct_leaves hdbg h
          rw [hleaves, a1, m2]
          rfl
    | tr lab children =>
      simp only [rcparse, if_neg h0, asTreeV] at h
      split at h
      next e heq => simp at h
      next cs heq =>
        split at h
        next e heq2 => simp at h
        next cs2 heq2 =>
          obtain ⟨m1, m2, m3⟩ := mkChunkString_fields heq
          obtain ⟨a1, a2, a3⟩ := applyRules_fields _ _ _ heq2
          have hdbg : cs2.debug > 0 := by rw [a3, m3]; norm_num
          obtain ⟨-, hleaves⟩ := toChunkstruct_leaves hdbg h
          rw [hleaves, a1, m2]
          rfl

theorem runStages_leaves : ∀ (stages : List RCParser)
    (v v' : ChunkStructV), runStages stages v = .ok v' →
    leavesV v' = leavesV v := by
  intro stages
  induction stages with
  | nil =>
    intro v v' h
    simp only [runStages, Except.ok.injEq] at h
    rw [h]
  | cons stage rest ih =>
    intro v v' h
    simp only [runStages] at h
    rcases hp : rcparse stage v with e | lc
    · rw [hp] at h; simp at h
    · rw [hp] at h
      obtain ⟨l, cs⟩ := lc
      have h1 := rcparse_leaves hp
      have h2 := ih _ _ h
      rw [h2]
      exact h1

theorem runLoops_leaves : ∀ (n : Nat) (stages : List RCParser)
    (v v' : ChunkStructV), runLoops n stages v = .ok v' →
    leavesV v' = leavesV v := by
  intro n
  induction n with
  | zero =>
    intro stages v v' h
    simp only [runLoops, Except.ok.injEq] at h
    rw [h]
  | succ n ih =>
    intro stages v v' h
    simp only [runLoops] at h
    rcases hs : runStages stages v with e | v1
    · rw [hs] at h; simp at h
    · rw [hs] at h
      rw [ih _ _ _ h]
      exact runStages_leaves _ _ _ hs

/-- A piece that is a `(value, label)` tuple, i.e. a token as the
parser consumes it. -/
def isTup : PItem → Bool
  | .tup _ _ => true
  | _ => false

theorem leavesL_of_tups : ∀ (T : List PItem), T.all isTup = true →
    leavesL T = T := by
  intro T
  induction T with
  | nil => intro _; rfl
  | cons x r ih =>
    intro h
    simp only [List.all_cons, Bool.and_eq_true] at h
    cases x with
    | tup v l => simp [leavesL, leavesI, ih h.2]
    | obj t => simp [isTup] at h
    | tree l cs => simp [isTup] at h

/-- C2.  For every parser and every nonempty token sequence `T`, if
`parse` returns a tree, its leaves are exactly `T`: the same tokens with
the same labels, in the same order. -/
theorem claim_C2 (P : RParser) (T : List PItem) (_hne : T ≠ [])
    (htup : T.all isTup = true) (l : Lab) (cs : List PItem)
    (h : rparse P (.lst T) = .ok (.tr l cs)) : leavesL cs = T := by
  have := runLoops_leaves P.loop P.stages _ _ h
  simp only [leavesV] at this
  rw [this, leavesL_of_tups T htup]

/-- Witness for C2: a one-stage parser over two tokens. -/
theorem claim_C2_witness :
    leavesL [PItem.tup (L "a") (L "A"), PItem.tup (L "b") (L "B")] =
      [PItem.tup (L "a") (L "A"), PItem.tup (L "b") (L "B")] :=
  claim_C2 ⟨[⟨[fun s => s], L "NP", L "S"⟩], 1⟩
    [PItem.tup (L "a") (L "A"), PItem.tup (L "b") (L "B")]
    (by simp) (by decide) (L "S")
    [PItem.tup (L "a") (L "A"), PItem.tup (L "b") (L "B")] (by rfl)

/-! ## C8 and C4: braces under `apply_transform` -/

/-- One step of the balanced-non-nested brace automaton: the state is
`some false` outside a group, `some true` inside one, `none` after a
violation (a stray `}` outside or a nested `{` inside). -/
def braceStep (st : Option Bool) (c : Char) : Option Bool :=
  match st with
  | none => none
  | some b =>
    if c = '{' then (if b then none else some true)
    else if c = '}' then (if b then some false else none)
    else some b

/-- Run the brace automaton over a string. -/
def braceRun (st : Option Bool) (s : List Char) : Option Bool :=
  s.foldl braceStep st

/-- Balanced and non-nested braces: the automaton starts and ends
outside a group and never fails.  (Equivalent to the brace projection
being a sequence of `{}` pairs, the check `_verify` performs.) -/
def bnn (s : List Char) : Bool :=
  braceRun (some false) s = some false

/-- `s` contains the substring `{}`. -/
def hasEmptyGroup : List Char → Bool
  | [] => false
  | [_] => false
  | c :: d :: r => (c = '{' && d = '}') || hasEmptyGroup (d :: r)

theorem braceRun_none : ∀ (s : List Char), braceRun none s = none := by
  intro s
  induction s with
  | nil => rfl
  | cons c r ih =>
    simp only [braceRun, List.foldl_cons, braceStep]
    exact ih

theorem braceRun_append (st : Option Bool) (a b : List Char) :
    braceRun st (a ++ b) = braceRun (braceRun st a) b := by
  simp [braceRun, List.foldl_append]

/-- One pass of `{}`-removal leaves no `{}` when the input's braces are
balanced and non-nested (starting from either state). -/
theorem removeCurly_noEmpty : ∀ (l : List Char) (st : Bool),
    braceRun (some st) l = some false →
    hasEmptyGroup (removeCurly l) = false
  | [], st, _ => by simp [removeCurly, hasEmptyGroup]
  | [c], st, _ => by simp [removeCurly, hasEmptyGroup]
  | c :: d :: r, st, h => by
    by_cases hcd : c = '{' && d = '}'
    · simp only [Bool.and_eq_true, decide_eq_true_eq] at hcd
      obtain ⟨rfl, rfl⟩ := hcd
      rw [show removeCurly ('{' :: '}' :: r) = removeCurly r from by
        simp [removeCurly]]
      cases st with
      | true =>
        exfalso
        have : braceRun none ('}' :: r) = some false := by
          simpa [braceRun, List.foldl_cons, braceStep] using h
        rw [show braceRun none ('}' :: r) = none from by
          simpa [braceRun, List.foldl_cons, braceStep] using
            braceRun_none r] at this
        cases this
      | false =>
        have h' : braceRun (some false) r = some false := by
          simpa [braceRun, List.foldl_cons, braceStep] using h
        exact removeCurly_noEmpty r false h'
    · rw [show removeCurly (c :: d :: r) = c :: removeCurly (d :: r) from by
        simp [removeCurly, hcd]]
      -- the state after reading `c`
      rcases hst' : braceStep (some st) c with _ | st'
      · exfalso
        have : braceRun none (d :: r) = some false := by
          rw [← hst']
          simpa [braceRun, List.foldl_cons] using h
        rw [braceRun_none] at this
        cases this
      · have h' : braceRun (some st') (d :: r) = some false := by
          rw [← hst']
          simpa [braceRun, List.foldl_cons] using h
        have ih := removeCurly_noEmpty (d :: r) st' h'
        -- the head of `removeCurly (d :: r)` cannot make a `{}` with `c`
        by_cases hc : c = '{'
        · subst hc
          -- after `{`, the state is `some true`, so `d` is not `{`
          -- (nesting fails) and not `}` (else `hcd`), hence `d` is kept
          have hstf : st = false := by
            cases st with
            | true => simp [braceStep] at hst'
            | false => rfl
          subst hstf
          have hst'' : st' = true := by
            simpa [braceStep] using hst'.symm
          subst hst''
          have hd1 : ¬d = '{' := by
            intro hd
            subst hd
            have : braceRun none r = some false := by
              simpa [braceRun, List.foldl_cons, braceStep] using h'
            rw [braceRun_none] at this
            cases this
          have hd2 : ¬d = '}' := by
            intro hd
            subst hd
            simp at hcd
          have hrc : ∃ t, removeCurly (d :: r) = d :: t := by
            cases r with
            | nil => exact ⟨[], rfl⟩
            | cons e r' =>
              refine ⟨removeCurly (e :: r'), ?_⟩
              rw [show removeCurly (d :: e :: r') =
                  d :: removeCurly (e :: r') from by
                simp [removeCurly, hd1]]
          obtain ⟨t, ht⟩ := hrc
          rw [ht]
          rw [ht] at ih
          simp [hasEmptyGroup, hd2, ih]
        · rcases hrc : removeCurly (d :: r) with _ | ⟨e, t⟩
          · simp [hasEmptyGroup]
          · rw [hrc] at ih
            simp [hasEmptyGroup, hc, ih]

theorem applyTransform_str {cs cs' : ChunkStringM}
    {f : List Char → List Char} (h : applyTransform cs f = .ok cs') :
    cs'.str = removeCurly (f cs.str) := by
  simp only [applyTransform] at h
  by_cases hd : cs.debug > 1
  · rw [if_pos hd] at h
    split at h
    next e heq => simp at h
    next u heq =>
      simp only [Except.ok.injEq] at h
      subst h
      rfl
  · rw [if_neg hd] at h
    simp only [Except.ok.injEq] at h
    subst h
    rfl

/-- C8 as stated is false: a transformer whose output nests braces, such
as the constant `"{{}}"`, leaves a literal `{}` in the committed parse
string, because the `replace("{}", "")` pass runs only once. -/
theorem claim_C8_counterexample :
    mkChunkString (L "S") [PItem.tup (L "a") (L "A")] 1 =
      .ok { rootLabel := L "S", pieces := [PItem.tup (L "a") (L "A")],
            str := L "<A>", debug := 1 } ∧
    applyTransform
        { rootLabel := L "S", pieces := [PItem.tup (L "a") (L "A")],
          str := L "<A>", debug := 1 }
        (fun _ => ['{', '{', '}', '}']) =
      .ok { rootLabel := L "S", pieces := [PItem.tup (L "a") (L "A")],
            str := ['{', '}'], debug := 1 } ∧
    hasEmptyGroup ['{', '}'] = true :=
  ⟨rfl, rfl, rfl⟩

/-- C8 amended.  After `apply_transform`, the committed string is the
transformer's output with one left-to-right `{}`-removal pass; whenever
the transformer's output has balanced, non-nested braces — as every
chunk-rule substitution produces — the committed string contains no
`{}`.  (A transformer emitting nested braces such as `{{}}` defeats the
single pass.) -/
theorem claim_C8_amended (cs : ChunkStringM) (f : List Char → List Char)
    (cs' : ChunkStringM) (h : applyTransform cs f = .ok cs')
    (hb : bnn (f cs.str) = true) : hasEmptyGroup cs'.str = false := by
  rw [applyTransform_str h]
  exact removeCurly_noEmpty (f cs.str) false (by simpa [bnn] using hb)

/-- Witness for C8 (amended): a transformer wrapping the whole string in
one group. -/
theorem claim_C8_witness :
    hasEmptyGroup (ChunkStringM.str
      { rootLabel := L "S", pieces := [PItem.tup (L "a") (L "A")],
        str := '{' :: L "<A>" ++ ['}'], debug := 1 }) = false :=
  claim_C8_amended
    { rootLabel := L "S", pieces := [PItem.tup (L "a") (L "A")],
      str := L "<A>", debug := 1 }
    (fun s => '{' :: s ++ ['}'])
    { rootLabel := L "S", pieces := [PItem.tup (L "a") (L "A")],
      str := '{' :: L "<A>" ++ ['}'], debug := 1 }
    (by rfl) (by rfl)

/-- The decomposition a `re.sub` pass induces on its subject string:
the text between (and around) the non-overlapping matches.  `parts` is
the list of (match, following gap) pairs; the subject is
`g0 ++ m1 ++ g1 ++ m2 ++ g2 ++ ...`. -/
def tailStr (parts : List (List Char × List Char)) : List Char :=
  parts.flatMap (fun p => p.1 ++ p.2)

/-- The subject string of the decomposition. -/
def interWith (g0 : List Char) (parts : List (List Char × List Char)) :
    List Char :=
  g0 ++ tailStr parts

/-- The result of the substitution `{\g<chunk>}`: every match wrapped in
braces, gaps untouched. -/
def interWrapped (g0 : List Char) (parts : List (List Char × List Char)) :
    List Char :=
  g0 ++ parts.flatMap (fun p => '{' :: p.1 ++ '}' :: p.2)

/-- A match of a compiled chunk rule contains no brace (it only ever
matches `<label>` atoms). -/
def braceFree (m : List Char) : Bool :=
  m.all (fun c => c != '{' && c != '}')

/-- The between-groups lookahead `(?=[^\}]*(\{|$))` of
`ChunkString.IN_STRIP_PATTERN`, evaluated on the text after a match: no
`}` occurs before the next `{` (or the end). -/
def lookCond (suffix : List Char) : Bool :=
  (suffix.takeWhile (fun c => c != '{')).all (fun c => c != '}')

/-- The conditions `re.sub` guarantees for the matches of a compiled
chunk rule: each match is brace-free, and its lookahead holds on the
text that follows it. -/
def goodParts : List (List Char × List Char) → Bool
  | [] => true
  | (m, g) :: rest =>
    braceFree m && lookCond (g ++ tailStr rest) && goodParts rest

/-- One application of a chunk rule through `apply_transform`: wrap the
matches, then remove the `{}` pairs. -/
inductive RuleStep : List Char → List Char → Prop where
  | mk : ∀ (g0 : List Char) (parts : List (List Char × List Char)),
      goodParts parts = true →
      RuleStep (interWith g0 parts) (removeCurly (interWrapped g0 parts))

/-- A sequence of chunk-rule applications. -/
inductive RuleSteps : List Char → List Char → Prop where
  | refl (s : List Char) : RuleSteps s s
  | step {s s' s'' : List Char} : RuleStep s s' → RuleSteps s' s'' →
      RuleSteps s s''

/-- Inside a group, the remaining text must close it before opening
another, so the between-groups lookahead fails. -/
theorem lookCond_fails_inside : ∀ (suffix : List Char),
    braceRun (some true) suffix = some false → lookCond suffix = false := by
  intro suffix
  induction suffix with
  | nil => intro h; simp [braceRun] at h
  | cons c r ih =>
    intro h
    by_cases h1 : c = '{'
    · subst h1
      exfalso
      have : braceRun none r = some false := by
        simpa [braceRun, List.foldl_cons, braceStep] using h
      rw [braceRun_none] at this
      cases this
    · by_cases h2 : c = '}'
      · subst h2
        simp [lookCond, List.takeWhile]
      · have h' : braceRun (some true) r = some false := by
          simpa [braceRun, List.foldl_cons, braceStep, h1, h2] using h
        have := ih h'
        simp only [lookCond] at this ⊢
        rw [show List.takeWhile (fun c => c != '{') (c :: r) =
            c :: List.takeWhile (fun c => c != '{') r from by
          simp [List.takeWhile_cons, h1]]
        simp [this, h2]

/-- A brace-free string leaves the brace automaton untouched. -/
theorem braceFree_run : ∀ (m : List Char) (st : Option Bool),
    braceFree m = true → braceRun st m = st := by
  intro m
  induction m with
  | nil => intro st _; rfl
  | cons c r ih =>
    intro st h
    simp only [braceFree, List.all_cons, Bool.and_eq_true, bne_iff_ne,
      ne_eq] at h
    have step : braceStep st c = st := by
      cases st with
      | none => rfl
      | some b => simp [braceStep, h.1.1, h.1.2]
    simp only [braceRun, List.foldl_cons, step]
    exact ih st (by simp [braceFree, h.2])

/-- The two invariants of one substitution pass: the wrapped string is
still accepted from the outside state, and the automaton is in the
outside state just before every match. -/
theorem subPass_props : ∀ (parts : List (List Char × List Char))
    (g0 : List Char), goodParts parts = true →
    braceRun (some false) (g0 ++ tailStr parts) = some false →
    braceRun (some false) (interWrapped g0 parts) = some false ∧
    ∀ k, k < parts.length →
      braceRun (some false) (g0 ++ tailStr (parts.take k)) = some false := by
  intro parts
  induction parts with
  | nil =>
    intro g0 _ h
    refine ⟨?_, by intro k hk; simp at hk⟩
    simpa [interWrapped, tailStr] using h
  | cons p rest ih =>
    intro g0 hg h
    obtain ⟨m, g⟩ := p
    simp only [goodParts, Bool.and_eq_true] at hg
    obtain ⟨⟨hbf, hlook⟩, hrest⟩ := hg
    have hdecomp : g0 ++ tailStr ((m, g) :: rest) =
        g0 ++ (m ++ (g ++ tailStr rest)) := by
      simp [tailStr, List.append_assoc]
    rw [hdecomp, braceRun_append, braceRun_append] at h
    rcases hst0 : braceRun (some false) g0 with _ | b
    · rw [hst0, braceRun_none, braceRun_none] at h
      cases h
    · rw [hst0] at h
      cases b with
      | true =>
        exfalso
        rw [braceFree_run m _ hbf] at h
        exact absurd (lookCond_fails_inside _ h) (by simp [hlook])
      | false =>
        rw [braceFree_run m _ hbf] at h
        obtain ⟨iha, ihb⟩ := ih g hrest (by simpa [interWith] using h)
        constructor
        · have : interWrapped g0 ((m, g) :: rest) =
              g0 ++ ('{' :: m ++ '}' :: (interWrapped g rest)) := by
            simp [interWrapped, List.append_assoc]
          rw [this, braceRun_append, hst0]
          have hrun : braceRun (some false) ('{' :: m ++ '}' ::
              interWrapped g rest) = some false := by
            have s1 : braceRun (some false) ('{' :: m ++ '}' ::
                interWrapped g rest) =
                braceRun (braceRun (some true) m)
                  ('}' :: interWrapped g rest) := by
              simp [braceRun, List.foldl_cons, braceStep,
                List.foldl_append]
            rw [s1, braceFree_run m _ hbf]
            simpa [braceRun, List.foldl_cons, braceStep] using iha
          exact hrun
        · intro k hk
          cases k with
          | zero => simpa [tailStr] using hst0
          | succ j =>
            have hj : j < rest.length := by simpa using hk
            have := ihb j hj
            have hdec2 : g0 ++ tailStr (((m, g) :: rest).take (j + 1)) =
                g0 ++ (m ++ (g ++ tailStr (rest.take j))) := by
              simp [tailStr, List.append_assoc]
            rw [hdec2, braceRun_append, braceRun_append, hst0,
              braceFree_run m _ hbf]
            exact this

/-- `{}`-removal preserves acceptance of the brace automaton. -/
theorem removeCurly_run : ∀ (l : List Char) (st : Bool),
    braceRun (some st) l = some false →
    braceRun (some st) (removeCurly l) = some false
  | [], st, h => by simpa [removeCurly] using h
  | [c], st, h => by simpa [removeCurly] using h
  | c :: d :: r, st, h => by
    by_cases hcd : c = '{' && d = '}'
    · simp only [Bool.and_eq_true, decide_eq_true_eq] at hcd
      obtain ⟨rfl, rfl⟩ := hcd
      rw [show removeCurly ('{' :: '}' :: r) = removeCurly r from by
        simp [removeCurly]]
      cases st with
      | true =>
        exfalso
        have : braceRun none ('}' :: r) = some false := by
          simpa [braceRun, List.foldl_cons, braceStep] using h
        rw [show braceRun none ('}' :: r) = none from by
          simpa [braceRun, List.foldl_cons, braceStep] using
            braceRun_none r] at this
        cases this
      | false =>
        have h' : braceRun (some false) r = some false := by
          simpa [braceRun, List.foldl_cons, braceStep] using h
        exact removeCurly_run r false h'
    · rw [show removeCurly (c :: d :: r) = c :: removeCurly (d :: r) from by
        simp [removeCurly, hcd]]
      rcases hst' : braceStep (some st) c with _ | st'
      · exfalso
        have : braceRun none (d :: r) = some false := by
          rw [← hst']
          simpa [braceRun, List.foldl_cons] using h
        rw [braceRun_none] at this
        cases this
      · have h' : braceRun (some st') (d :: r) = some false := by
          rw [← hst']
          simpa [braceRun, List.foldl_cons] using h
        have ih := removeCurly_run (d :: r) st' h'
        show braceRun (braceStep (some st) c) (removeCurly (d :: r)) =
          some false
        rw [hst']
        exact ih

/-- Every chunk-rule application preserves balanced, non-nested
braces. -/
theorem ruleStep_bnn {s s' : List Char} (hs : bnn s = true)
    (st : RuleStep s s') : bnn s' = true := by
  cases st with
  | mk g0 parts hg =>
    have h : braceRun (some false) (g0 ++ tailStr parts) = some false := by
      simpa [bnn, interWith] using hs
    obtain ⟨ha, -⟩ := subPass_props parts g0 hg h
    simpa [bnn] using removeCurly_run _ _ ha

/-- A string without braces is trivially balanced and non-nested. -/
theorem bnn_of_no_braces {s : List Char} (h : curlyOf s = []) :
    bnn s = true := by
  have hbf : braceFree s = true := by
    simp only [curlyOf, List.filter_eq_nil_iff] at h
    simp only [braceFree, List.all_eq_true]
    intro c hc
    have := h c hc
    simp only [Bool.or_eq_true, decide_eq_true_eq, not_or] at this
    simp [this.1, this.2]
  simp [bnn, braceFree_run s _ hbf]

/-- The encoding of legal labels is brace-free. -/
theorem braceFree_encode : ∀ (M : List Lab), M.all legalLabel = true →
    braceFree (encodeL M) = true := by
  intro M
  induction M with
  | nil => intro _; rfl
  | cons a r ih =>
    intro hg
    simp only [List.all_cons, Bool.and_eq_true] at hg
    rw [encodeL_cons]
    have h1 : a.all (fun c => c != '{' && c != '}') = true := by
      rw [List.all_eq_true]
      intro c hc
      have := List.all_eq_true.mp hg.1 c hc
      simp only [Bool.not_eq_eq_eq_not, Bool.not_true, isDelim,
        Bool.or_eq_false_iff, decide_eq_false_iff_not] at this
      simp [this.1.2, this.2]
    have h2 := ih hg.2
    simp only [braceFree] at h2 ⊢
    simp [List.all_cons, List.all_append, h1, h2]

/-- A match of a compiled tag pattern is brace-free: it only ever covers
`<label>` atoms of the encoding. -/
theorem compiled_match_braceFree (p : TagPattern) (hp : wfT p = true)
    {m : List Char} (h : CMatch (compileTag p) m) : braceFree m = true := by
  obtain ⟨M, rfl, hg, -⟩ := cmatch_sound h p rfl hp
  exact braceFree_encode M hg

/-- C4.  (i) The parse string of a freshly built `ChunkString` has
balanced, non-nested braces; (ii) every sequence of chunk-rule
substitutions applied through `apply_transform` — wrap brace-free
matches whose between-groups lookahead `(?=[^\}]*(\{|$))` holds, then
strip `{}` — preserves that invariant, so it holds at every observable
state; (iii) the lookahead forces the brace automaton to be in the
outside state at the start of every match, i.e. every newly wrapped
match lies entirely in a not-yet-grouped region. -/
theorem claim_C4 :
    (∀ (root : Lab) (children : List PItem) (d : Nat) (cs : ChunkStringM),
       children.all goodPiece = true →
       mkChunkString root children d = .ok cs → bnn cs.str = true)
    ∧ (∀ s s', bnn s = true → RuleSteps s s' → bnn s' = true)
    ∧ (∀ (g0 : List Char) (parts : List (List Char × List Char)),
        goodParts parts = true → bnn (interWith g0 parts) = true →
        ∀ k, k < parts.length →
          braceRun (some false) (g0 ++ tailStr (parts.take k)) =
            some false) := by
  refine ⟨?_, ?_, ?_⟩
  · intro root children d cs hgood hmk
    obtain ⟨tags, htags, hg, hlen⟩ := tagsOf_good children hgood
    simp only [mkChunkString, htags, Except.ok.injEq] at hmk
    subst hmk
    cases tags with
    | nil => rfl
    | cons a r =>
      show bnn ('<' :: List.intercalate ['>', '<'] (a :: r) ++ ['>']) = true
      rw [mkstr_eq_encode (a :: r) (by simp)]
      exact bnn_of_no_braces (curlyOf_encode _ (goodTag_legal hg))
  · intro s s' hs hsteps
    induction hsteps with
    | refl => exact hs
    | step h1 _ ih => exact ih (ruleStep_bnn hs h1)
  · intro g0 parts hg hb k hk
    have h : braceRun (some false) (g0 ++ tailStr parts) = some false := by
      simpa [bnn, interWith] using hb
    exact (subPass_props parts g0 hg h).2 k hk

/-- Witness for C4: one chunk-rule application on `<A><B>`, wrapping the
first atom. -/
theorem claim_C4_witness :
    bnn (removeCurly (interWrapped [] [(L "<A>", L "<B>")])) = true :=
  claim_C4.2.1 (interWith [] [(L "<A>", L "<B>")])
    (removeCurly (interWrapped [] [(L "<A>", L "<B>")])) (by decide)
    (RuleSteps.step (RuleStep.mk [] [(L "<A>", L "<B>")] (by decide))
      (RuleSteps.refl _))

/-! ## C9: invalid grammar lines abort construction -/

/-- `RegexpParser.__init__` for a string grammar: read the stages; any
error propagates and no parser value exists. -/
def regexpParserOfGrammar (grammar : List Char) (loop : Nat) :
    Except String (List StageStr × Nat) :=
  match readGrammar grammar with
  | .error e => .error e
  | .ok stages => .ok (stages, loop)

/-- C9.  A grammar line with two disjoint braced patterns,
`X: {<foo>} {<bar>}`, makes `RegexpParser` construction fail with
`ValueError("Illegal chunk pattern: {<foo>} {<bar>}")` (the stripped
line `<foo>} {<bar` is not a valid tag pattern), so no parser is ever
built from it. -/
theorem claim_C9 :
    readGrammar (L "X: \x7b<foo>\x7d \x7b<bar>\x7d") =
        .error "Illegal chunk pattern: \x7b<foo>\x7d \x7b<bar>\x7d" ∧
      ∀ loop, regexpParserOfGrammar (L "X: \x7b<foo>\x7d \x7b<bar>\x7d")
          loop =
        .error "Illegal chunk pattern: \x7b<foo>\x7d \x7b<bar>\x7d" := by
  refine ⟨rfl, ?_⟩
  intro loop
  simp only [regexpParserOfGrammar]
  rw [show readGrammar (L "X: \x7b<foo>\x7d \x7b<bar>\x7d") =
      .error "Illegal chunk pattern: \x7b<foo>\x7d \x7b<bar>\x7d" from
    rfl]

/-! ## An executable model of the Python regex engine

`re.sub` over a compiled chunk rule is modelled operationally: a
backtracking matcher in continuation-passing style whose exploration
order matches Python's (greedy quantifiers try the longer repetition
first, alternation tries the left branch first, `re.sub` takes the
leftmost match), run over the syntax tree obtained by parsing the
compiled regexp string.  The fuel arguments only bound the recursion
depth; they are chosen large enough for every concrete run. -/

def matchE : Nat → CharRegex → List Char →
    (List Char → Option (List Char)) → Option (List Char)
  | 0, _, _, _ => none
  | fuel + 1, r, s, k =>
    match r with
    | .eps => k s
    | .eos => match s with | [] => k [] | _ => none
    | .lit c =>
      match s with
      | [] => none
      | c' :: s' => if c' = c then k s' else none
    | .dot =>
      match s with
      | [] => none
      | c' :: s' => if isDelim c' then none else k s'
    | .cls neg cs =>
      match s with
      | [] => none
      | c' :: s' => if cs.contains c' = !neg then k s' else none
    | .seq a b => matchE fuel a s (fun s' => matchE fuel b s' k)
    | .alt a b =>
      match matchE fuel a s k with
      | some res => some res
      | none => matchE fuel b s k
    | .star a =>
      match matchE fuel a s (fun s' =>
          if s'.length < s.length then matchE fuel (.star a) s' k
          else none) with
      | some res => some res
      | none => k s
    | .plus a => matchE fuel a s (fun s' => matchE fuel (.star a) s' k)
    | .opt a =>
      match matchE fuel a s k with
      | some res => some res
      | none => k s
    | .repE 0 _ => k s
    | .repE (n + 1) a =>
      matchE fuel a s (fun s' => matchE fuel (.repE n a) s' k)
    | .repAL n a =>
      matchE fuel (.repE n a) s (fun s' => matchE fuel (.star a) s' k)
    | .repR m n a =>
      if n < m then none
      else match m with
        | m' + 1 =>
          matchE fuel a s (fun s' => matchE fuel (.repR m' (n - 1) a) s' k)
        | 0 =>
          match n with
          | 0 => k s
          | n' + 1 =>
            match matchE fuel a s (fun s' =>
                if s'.length < s.length then matchE fuel (.repR 0 n' a) s' k
                else none) with
            | some res => some res
            | none => k s

/-- Does a lookahead regex match at this position (i.e. on some prefix
of the rest)? -/
def lookOk (fuel : Nat) (look : CharRegex) (s : List Char) : Bool :=
  (matchE fuel look s (fun s' => some s')).isSome

/-- The scanning loop of `re.sub` for a chunk rule: at each position try
the body with the lookahead as the continuation's filter; wrap the first
(backtracking-order) match in braces and continue after it, otherwise
move one character right.  (A zero-width match contributes `{}`, which
the empty-group removal of `apply_transform` deletes again, so it is
skipped here.) -/
def subWrapGo : Nat → CharRegex → CharRegex → List Char → List Char
  | 0, _, _, s => s
  | f + 1, body, look, s =>
    match s with
    | [] => []
    | c :: rest =>
      match matchE ((s.length + 2) * 100) body s
          (fun r => if lookOk ((s.length + 2) * 100) look r then some r
                    else none) with
      | some r =>
        let matched := s.take (s.length - r.length)
        if matched.isEmpty then c :: subWrapGo f body look rest
        else '{' :: matched ++ '}' :: subWrapGo f body look r
      | none => c :: subWrapGo f body look rest

/-- `re.sub(compiled_rule, r"{\g<chunk>}", s)`: the named group `chunk`
spans the whole consuming pattern, so the replacement wraps the entire
match in braces. -/
def subWrap (body look : CharRegex) (s : List Char) : List Char :=
  subWrapGo (s.length + 1) body look s

/-! ### Parsing a compiled regexp string back into its syntax tree -/

/-- Parse a decimal integer (at least one digit). -/
def pNat (s : List Char) : Option (Nat × List Char) :=
  let ds := s.takeWhile Char.isDigit
  if ds.isEmpty then none
  else some (ds.foldl (fun a c => a * 10 + (c.toNat - 48)) 0,
    s.drop ds.length)

/-- The members of a character class, up to the closing `]`;
backslash-escaped characters are literal. -/
def pClassItems : List Char → Option (List Char × List Char)
  | [] => none
  | ']' :: r => some ([], r)
  | '\\' :: c :: r => (pClassItems r).map (fun p => (c :: p.1, p.2))
  | c :: r => (pClassItems r).map (fun p => (c :: p.1, p.2))

mutual

/-- Alternation level: `seq ('|' alt)?`. -/
def pAlt : Nat → List Char → Option (CharRegex × List Char)
  | 0, _ => none
  | f + 1, s =>
    match pSeq f s with
    | none => none
    | some (a, rest) =>
      match rest with
      | '|' :: r2 =>
        match pAlt f r2 with
        | none => none
        | some (b, rest2) => some (.alt a b, rest2)
      | _ => some (a, rest)

/-- Concatenation level: a run of repeated atoms, stopping at `)` `|`
or the end; the empty run is `eps`. -/
def pSeq : Nat → List Char → Option (CharRegex × List Char)
  | 0, _ => none
  | f + 1, s =>
    match s with
    | [] => some (.eps, [])
    | ')' :: _ => some (.eps, s)
    | '|' :: _ => some (.eps, s)
    | _ =>
      match pRep f s with
      | none => none
      | some (a, rest) =>
        match pSeq f rest with
        | none => none
        | some (b, rest2) =>
          some ((match b with | .eps => a | _ => .seq a b), rest2)

/-- One atom with its postfix quantifiers. -/
def pRep : Nat → List Char → Option (CharRegex × List Char)
  | 0, _ => none
  | f + 1, s =>
    match pBase f s with
    | none => none
    | some (a, rest) => pPostfix f a rest

/-- Postfix quantifiers `* + ? {m} {m,} {m,n}` (possibly several). -/
def pPostfix : Nat → CharRegex → List Char → Option (CharRegex × List Char)
  | 0, _, _ => none
  | f + 1, a, s =>
    match s with
    | '*' :: r => pPostfix f (.star a) r
    | '+' :: r => pPostfix f (.plus a) r
    | '?' :: r => pPostfix f (.opt a) r
    | '{' :: r =>
      match pNat r with
      | some (m, rest) =>
        match rest with
        | '}' :: r2 => pPostfix f (.repE m a) r2
        | ',' :: '}' :: r2 => pPostfix f (.repAL m a) r2
        | ',' :: r2 =>
          match pNat r2 with
          | some (n, r3) =>
            match r3 with
            | '}' :: r4 => pPostfix f (.repR m n a) r4
            | _ => none
          | none => none
        | _ => none
      | none => none
    | _ => some (a, s)

/-- A base atom: a parenthesised group, a character class, an escaped
literal, the `$` anchor, or a literal character. -/
def pBase : Nat → List Char → Option (CharRegex × List Char)
  | 0, _ => none
  | f + 1, s =>
    match s with
    | '(' :: r =>
      match pAlt f r with
      | some (a, ')' :: rest) => some (a, rest)
      | _ => none
    | '[' :: '^' :: r =>
      match pClassItems r with
      | some (cs, rest) => some (.cls true cs, rest)
      | none => none
    | '[' :: r =>
      match pClassItems r with
      | some (cs, rest) => some (.cls false cs, rest)
      | none => none
    | '\\' :: c :: r => some (.lit c, r)
    | '$' :: r => some (.eos, r)
    | c :: r =>
      if c = ')' || c = '|' || c = '*' || c = '+' || c = '?' || c = '{' ||
          c = '}' || c = ']' then none
      else some (.lit c, r)
    | [] => none

end

/-- Parse a full compiled chunk-rule regexp
`(?P<chunk>BODY)(?=LOOKAHEAD)` into the pair of syntax trees. -/
def parseChunkRuleStr (s : List Char) : Option (CharRegex × CharRegex) :=
  match s with
  | '(' :: '?' :: 'P' :: '<' :: 'c' :: 'h' :: 'u' :: 'n' :: 'k' :: '>' ::
      r =>
    match pAlt (r.length * 4 + 16) r with
    | some (body, ')' :: '(' :: '?' :: '=' :: r2) =>
      match pAlt (r2.length * 4 + 16) r2 with
      | some (look, [')']) => some (body, look)
      | _ => none
    | _ => none
  | _ => none

/-- The string transformer a compiled rule regexp performs under
`re.sub` with replacement `{\g<chunk>}`. -/
def transformOf (compiled : List Char) : List Char → List Char :=
  fun s =>
    match parseChunkRuleStr compiled with
    | some (body, look) => subWrap body look s
    | none => s

/-- A grammar stage as a runnable `RegexpChunkParser`. -/
def rcOfStage (rootLabel : Lab) (stage : StageStr) : RCParser :=
  { rules := stage.rules.map transformOf,
    chunkLabel := stage.chunkLabel,
    rootLabel := rootLabel }

/-- `RegexpParser(grammar, root_label, loop).parse(input)`, end to
end. -/
def regexpParserRun (grammar : List Char) (rootLabel : Lab) (loop : Nat)
    (input : ChunkStructV) : Except String ChunkStructV :=
  match readGrammar grammar with
  | .error e => .error e
  | .ok stages => rparse ⟨stages.map (rcOfStage rootLabel), loop⟩ input

/-- The input token list of the `<N.*>{4,}` scenario: the label sequence
`DT NN NN NNS NP VB NN NN NN NN JJ` has exactly two maximal runs of at
least four consecutive labels starting with `N` (positions 1–4 and
6–9). -/
def C7input : List PItem :=
  [.tup (L "the") (L "DT"),
   .tup (L "big") (L "NN"),
   .tup (L "red") (L "NN"),
   .tup (L "dogs") (L "NNS"),
   .tup (L "Rex") (L "NP"),
   .tup (L "ran") (L "VB"),
   .tup (L "fast") (L "NN"),
   .tup (L "home") (L "NN"),
   .tup (L "now") (L "NN"),
   .tup (L "here") (L "NN"),
   .tup (L "old") (L "JJ")]

/-- The expected parse: each of the two runs becomes a single `GROUP`
subtree and every other token stays a leaf. -/
def C7expected : List PItem :=
  [.tup (L "the") (L "DT"),
   .tree (L "GROUP")
     [.tup (L "big") (L "NN"),
      .tup (L "red") (L "NN"),
      .tup (L "dogs") (L "NNS"),
      .tup (L "Rex") (L "NP")],
   .tup (L "ran") (L "VB"),
   .tree (L "GROUP")
     [.tup (L "fast") (L "NN"),
      .tup (L "home") (L "NN"),
      .tup (L "now") (L "NN"),
      .tup (L "here") (L "NN")],
   .tup (L "old") (L "JJ")]

/-- C7: the tag pattern `<N.*>{4,}` with its counted quantifier outside
the angle brackets is accepted by `tag_pattern2re_pattern`, compiling to
`(<(N[^\{\}<>]*)>){4,}`, and running the grammar `GROUP: {<N.*>{4,}}`
(the chunk-rule form of that pattern) on a token list whose labels
contain exactly two maximal runs of at least four consecutive
`N…`-labels produces exactly two `GROUP` subtrees, one covering each
run, leaving all other tokens as leaves. -/
theorem claim_C7 :
    tagPattern2rePattern (L "<N.*>\x7b4,\x7d") =
        .ok (L "(<(N[^\\\x7b\\\x7d<>]*)>)\x7b4,\x7d") ∧
      regexpParserRun (L "GROUP: \x7b<N.*>\x7b4,\x7d\x7d") (L "ROOT") 1
          (.lst C7input) =
        .ok (.tr (L "ROOT") C7expected) :=
  ⟨rfl, rfl⟩
